import Mathlib

/-!
Verification of the ical-tools content-line generation engine.

This file gives a shallow embedding of the core writers of the
`ical-syntax` crate (folding writer, TEXT escaping writer, the
charset-validating writers, the content-line state machine, and the
composite value composition layer) and proves the specification claims
about them.

Representation choices:
* an octet (Rust `u8`) is a `Nat` (kept < 256 by construction or hypothesis);
* a Unicode scalar value (Rust `char`) is a `Nat` with `ValidScalar`;
* a Rust `&str` is a list of scalar values; its wire form is `encode`,
  the UTF-8 byte sequence (Rust strings are valid UTF-8 by construction,
  which is a hypothesis here);
* an output sink (`W: std::fmt::Write` that never fails) is an
  accumulating list of octets;
* fallible writes return `Except Unit`, mirroring `std::fmt::Result`.
-/

namespace ICal


/-- Bytes forbidden by `FoldingWriter::write_str` (from
`generate/folding_writer.rs`): `x == 0x7f || (x < 0x20 && x != b'\t')`. -/

def isCtl (x : Nat) : Bool := x == 0x7f || (x < 0x20 && !(x == 9))

/-- UTF-8 continuation-byte test from the folding loop: `b & 0xc0 == 0x80`. -/

def contB (x : Nat) : Bool := x &&& 0xc0 == 0x80

/-- A Unicode scalar value, as guaranteed for a Rust `char`. -/

def ValidScalar (c : Nat) : Prop := c < 0x110000 ∧ ¬(0xD800 ≤ c ∧ c ≤ 0xDFFF)

/-- Standard UTF-8 encoding of one scalar value, as maintained by Rust
`str`: one to four bytes depending on magnitude. -/

def utf8Encode1 (c : Nat) : List Nat :=
  if c < 0x80 then [c]
  else if c < 0x800 then [0xc0 + c / 64, 0x80 + c % 64]
  else if c < 0x10000 then [0xe0 + c / 4096, 0x80 + c / 64 % 64, 0x80 + c % 64]
  else [0xf0 + c / 262144, 0x80 + c / 4096 % 64, 0x80 + c / 64 % 64, 0x80 + c % 64]

/-- UTF-8 bytes of a string given as its list of scalar values. -/

def encode (cs : List Nat) : List Nat := (cs.map utf8Encode1).flatten

/-- Scalar values of a Lean string literal, for concrete test inputs. -/

def str (s : String) : List Nat := s.data.map (fun c => c.toNat)

/-- A scalar value that the folding layer accepts: a genuine scalar whose
encoding carries no forbidden control byte (for ASCII, the byte is the
scalar itself; multi-byte encodings never contain control bytes). -/

def GoodChar (c : Nat) : Prop := ValidScalar c ∧ isCtl c = false

instance (c : Nat) : Decidable (ValidScalar c) :=
  inferInstanceAs (Decidable (c < 0x110000 ∧ ¬(0xD800 ≤ c ∧ c ≤ 0xDFFF)))

instance (c : Nat) : Decidable (GoodChar c) :=
  inferInstanceAs (Decidable (ValidScalar c ∧ isCtl c = false))

def MAX_LINE_LENGTH : Nat := 75

def CONTINUATION : List Nat := [13, 10, 32]

def CRLF : List Nat := [13, 10]

/-- State of `FoldingWriter` from `generate/folding_writer.rs`, with the
inner sink embedded as the accumulated octet list `out`. -/

structure FoldingWriter where
  out : List Nat
  rem_line_len : Nat
  passed_eol : Bool
deriving DecidableEq, Repr

def FoldingWriter.new : FoldingWriter :=
  { out := [], rem_line_len := MAX_LINE_LENGTH, passed_eol := false }

def FoldingWriter.eol (fw : FoldingWriter) : FoldingWriter :=
  { fw with out := fw.out ++ CRLF, passed_eol := true }

/-- The backward scan of the folding loop:
`while b[end] & 0xc0 == 0x80 { end -= 1 }`.
On a byte whose index-0 element is a continuation byte the Rust loop would
underflow (impossible for valid UTF-8, which a `&str` guarantees); this
version stops at 0 in that case. -/

def scanBack (b : List Nat) : Nat → Nat
  | 0 => 0
  | e + 1 => if contB (b.getD (e + 1) 0) then scanBack b e else e + 1

/-- The `while b.len() > self.rem_line_len` folding loop of
`FoldingWriter::write_str`, returning the inner sink contents, the
remaining budget and the unwritten final chunk. The loop always
terminates on valid UTF-8; `fuel` (chosen large enough by the caller,
see `FoldingWriter.write_str`) makes the function structurally total,
and exhausted fuel — reachable only on byte sequences no Rust `&str`
can hold — reports an error. -/

def foldLoopF : Nat → List Nat → Nat → List Nat → Except Unit (List Nat × Nat × List Nat)
  | 0, _, _, _ => .error ()
  | fuel + 1, out, rem, b =>
    if b.length ≤ rem then .ok (out, rem, b)
    else
      let e := scanBack b rem
      foldLoopF fuel (out ++ b.take e ++ CONTINUATION) 74 (b.drop e)

/-- `FoldingWriter::write_str` over the UTF-8 bytes of the fragment:
validate against control bytes, run the folding loop, then subtract the
final chunk's length from the budget and emit the chunk. -/

def FoldingWriter.write_str (fw : FoldingWriter) (b : List Nat) : Except Unit FoldingWriter :=
  if b.any isCtl then .error ()
  else
    match foldLoopF (2 * b.length + 2) fw.out fw.rem_line_len b with
    | .error e => .error e
    | .ok (out, rem, rest) =>
      .ok { out := out ++ rest, rem_line_len := rem - rest.length, passed_eol := fw.passed_eol }

/-- Successive successful `write_str` calls, each fragment given as a
list of scalar values (a Rust `&str`). -/

def writeAll (fw : FoldingWriter) : List (List Nat) → Except Unit FoldingWriter
  | [] => .ok fw
  | s :: rest =>
    match fw.write_str (encode s) with
    | .ok fw' => writeAll fw' rest
    | .error e => .error e



/-! Byte-level facts about the continuation test and control test. -/


/-! Structure of UTF-8 encodings. -/

/-! Facts about `encode`. -/

/-! Characterization of the backward boundary scan. -/


/-! Specification of the folding loop. -/

/-- Octets a completed (folded) physical-line piece contributes to the
inner sink: its encoded text followed by the continuation sequence. -/

def pieceOut (p : List Nat) : List Nat := encode p ++ CONTINUATION

/-- Length discipline of the pieces emitted by one folding run entered
with budget `rem`: the first piece fit the entered budget, all later
pieces fit the post-continuation budget 74. -/

def PieceBounds (rem : Nat) : List (List Nat) → Prop
  | [] => True
  | p :: rest => (encode p).length ≤ rem ∧ ∀ q ∈ rest, (encode q).length ≤ 74



/-! The reachable-state invariant of the folding writer. -/

/-- Invariant tying a folding writer's state to the scalar values
written so far: the sink holds the closed physical-line pieces, each
followed by the continuation sequence, then the still-open line; every
closed first line fits 75 octets and every later one 74 (before its
leading continuation space); the budget is exactly what remains of the
current line. -/

def Inv (fw : FoldingWriter) (cs : List Nat) : Prop :=
  ∃ (closed : List (List Nat)) (cur : List Nat),
    cs = closed.flatten ++ cur ∧
    (∀ c ∈ cs, GoodChar c) ∧
    fw.out = (closed.map pieceOut).flatten ++ encode cur ∧
    PieceBounds 75 closed ∧
    (encode cur).length + fw.rem_line_len = (if closed.isEmpty then 75 else 74) ∧
    fw.passed_eol = false

/-! Physical lines of an octet stream, and continuation-marker removal. -/

/-- Split an octet stream at each CRLF pair: the resulting segments are
the physical lines (the terminating CRLF octets belong to no line). -/

def splitCRLF : List Nat → List (List Nat)
  | [] => [[]]
  | [x] => [[x]]
  | x :: y :: rest =>
    if x = 13 ∧ y = 10 then [] :: splitCRLF rest
    else
      match splitCRLF (y :: rest) with
      | [] => [[x]]
      | l :: ls => (x :: l) :: ls

/-- Delete every occurrence of the three-octet continuation marker
CRLF SPACE, scanning left to right. -/

def stripCont : List Nat → List Nat
  | [] => []
  | [x] => [x]
  | [x, y] => [x, y]
  | x :: y :: z :: rest =>
    if x = 13 ∧ y = 10 ∧ z = 32 then stripCont rest
    else x :: stripCont (y :: z :: rest)

def consHead (x : Nat) : List (List Nat) → List (List Nat)
  | [] => [[x]]
  | l :: ls => (x :: l) :: ls

/-! Structure of a reachable folding-writer sink. -/


/-- The physical lines of a reachable sink, after the final CRLF: the
first piece, then every further piece and the open line each prefixed by
the continuation SPACE, then the empty segment after the last CRLF. -/

def foldedLines (closed : List (List Nat)) (cur : List Nat) : List (List Nat) :=
  match closed with
  | [] => [encode cur]
  | c₀ :: rest => encode c₀ :: (rest.map encode ++ [encode cur]).map (fun l => 32 :: l)











/-! The charset-validating writers (`write/validating_writers.rs`,
`generate/validating_writers.rs`), over a never-failing inner sink
modelled as an accumulating octet list. -/

/-- `x.is_ascii_alphanumeric() || x == b'-'` — the iana-token check of
`NameWriter::write_str`. -/

def nameOK (x : Nat) : Bool :=
  (48 ≤ x && x ≤ 57) || (65 ≤ x && x ≤ 90) || (97 ≤ x && x ≤ 122) || x == 45

/-- The QSAFE-CHAR check of `QuotedStringWriter::write_str`:
`x == b'\t' || ((0x20..=0x7e).contains(&x) && x != b'"') || x >= 0x80`. -/

def qsafeOK (x : Nat) : Bool :=
  x == 9 || ((0x20 ≤ x && x ≤ 0x7e) && !(x == 34)) || 0x80 ≤ x

/-- The SAFE-CHAR check of `ParamtextWriter::write_str`: as QSAFE-CHAR
but also excluding `;` (59), `:` (58) and `,` (44). -/

def safeOK (x : Nat) : Bool :=
  x == 9 ||
    ((0x20 ≤ x && x ≤ 0x7e) && !(x == 34) && !(x == 59) && !(x == 58) && !(x == 44)) ||
    0x80 ≤ x

structure NameWriter where
  inner : List Nat
deriving DecidableEq, Repr

def NameWriter.new (inner : List Nat) : NameWriter := ⟨inner⟩

/-- `NameWriter::write_str`: validate every byte as iana-token, then
forward to the inner sink unchanged. -/

def NameWriter.write_str (w : NameWriter) (s : List Nat) : Except Unit NameWriter :=
  let is_valid := s.all nameOK
  if !is_valid then .error () else .ok ⟨w.inner ++ s⟩

structure ParamtextWriter where
  inner : List Nat
deriving DecidableEq, Repr

def ParamtextWriter.new (inner : List Nat) : ParamtextWriter := ⟨inner⟩

/-- `ParamtextWriter::write_str`: validate every byte as SAFE-CHAR, then
forward to the inner sink unchanged. -/

def ParamtextWriter.write_str (w : ParamtextWriter) (s : List Nat) : Except Unit ParamtextWriter :=
  let is_valid := s.all safeOK
  if !is_valid then .error () else .ok ⟨w.inner ++ s⟩

structure QuotedStringWriter where
  inner : List Nat
  is_closed : Bool
deriving DecidableEq, Repr

/-- `QuotedStringWriter::new` writes the opening DQUOTE. -/

def QuotedStringWriter.new (inner : List Nat) : QuotedStringWriter := ⟨inner ++ [34], false⟩

/-- `QuotedStringWriter::write_str`: validate every byte as QSAFE-CHAR,
then forward to the inner sink unchanged. -/

def QuotedStringWriter.write_str (w : QuotedStringWriter) (s : List Nat) :
    Except Unit QuotedStringWriter :=
  let is_valid := s.all qsafeOK
  if !is_valid then .error () else .ok ⟨w.inner ++ s, w.is_closed⟩

/-- `QuotedStringWriter::close` writes the closing DQUOTE. -/

def QuotedStringWriter.close (w : QuotedStringWriter) : QuotedStringWriter :=
  ⟨w.inner ++ [34], true⟩

/-- A Rust caller retains the writer (`&mut self`) after a failed
`write_str`; the pair is the writer after the call and a success flag. -/

def FoldingWriter.write_str_run (fw : FoldingWriter) (s : List Nat) : FoldingWriter × Bool :=
  match fw.write_str s with
  | .ok fw' => (fw', true)
  | .error _ => (fw, false)

def NameWriter.write_str_run (w : NameWriter) (s : List Nat) : NameWriter × Bool :=
  match w.write_str s with
  | .ok w' => (w', true)
  | .error _ => (w, false)

def ParamtextWriter.write_str_run (w : ParamtextWriter) (s : List Nat) : ParamtextWriter × Bool :=
  match w.write_str s with
  | .ok w' => (w', true)
  | .error _ => (w, false)

def QuotedStringWriter.write_str_run (w : QuotedStringWriter) (s : List Nat) :
    QuotedStringWriter × Bool :=
  match w.write_str s with
  | .ok w' => (w', true)
  | .error _ => (w, false)





/-! The TEXT escaping writer (`generate/text_writer.rs`). It operates on
characters (`s.find([...])` over a `&str`), so it is modelled on the
scalar-value lists; it transforms instead of rejecting and so never
fails on a never-failing sink. -/

/-- The characters `TextWriter` escapes: `\`, newline, `;`, `,`. -/

def isTextSpecial (c : Nat) : Bool := c == 92 || c == 10 || c == 59 || c == 44

/-- One iteration step of the `TextWriter::write_str` loop: find the
next special character, emit the text before it, then a backslash and
the substituted character (`n` for newline, the character itself
otherwise), and loop on the remainder; when no special character is
left, emit the remainder. The loop consumes at least one character per
iteration, so any `fuel` above the input length suffices; the fuel
makes the function structurally total. -/

def textWriterGo : Nat → List Nat → List Nat
  | 0, s => s
  | fuel + 1, s =>
    match s.findIdx? isTextSpecial with
    | some idx =>
      s.take idx ++ [92, if s.getD idx 0 == 10 then 110 else s.getD idx 0] ++
        textWriterGo fuel (s.drop (idx + 1))
    | none => s

/-- `TextWriter::write_str`: the characters the writer emits into its
inner sink for one fragment (the writer itself never fails). -/

def TextWriter.write_str (s : List Nat) : List Nat := textWriterGo (s.length + 1) s

/-- Modelled from the spec: the character-by-character TEXT escaping map
(`\x5c` → `\x5c\x5c`, newline → `\x5c n`, `;` → `\x5c ;`, `,` → `\x5c ,`,
anything else unchanged). -/

def escapeChar (c : Nat) : List Nat :=
  if isTextSpecial c then [92, if c == 10 then 110 else c] else [c]

/-- Modelled from the spec: the standard TEXT unescaping map — a
backslash followed by `n` or `N` becomes a newline, a backslash followed
by any other character becomes that character, anything else passes
through. -/

def textUnescape : List Nat → List Nat
  | [] => []
  | [c] => [c]
  | c :: d :: rest =>
    if c = 92 then (if d = 110 ∨ d = 78 then 10 else d) :: textUnescape rest
    else c :: textUnescape (d :: rest)


/-! The content-line state machine (`generate/content_line.rs`).

The validating writers wrap the content line's `FoldingWriter`, so
their validation is applied and, on success, the octets are forwarded
through the folding writer. The model writes each field's octets in one
`write_str` call; Rust's `write!` may split a field over several calls,
which only moves fragment boundaries (always codepoint boundaries) and
is byte-identical whenever a field fits the remaining budget, as in
every concrete case below. -/

inductive CLState where
  | initial
  | afterName
  | afterParamName
  | afterParamValue
  | value
deriving DecidableEq, Repr

/-- Result of a content-line operation: success, a recoverable
formatting error (`std::fmt::Error`), or a fatal contract violation
(a Rust `assert!` failure). -/

inductive Outcome (α : Type) where
  | ok (a : α)
  | fmtError
  | panic
deriving DecidableEq, Repr

structure ContentLine where
  inner : FoldingWriter
  state : CLState
deriving DecidableEq, Repr

/-- `ContentLine::new`: a fresh folding writer in the `Initial` state. -/

def ContentLine.new : ContentLine := ⟨FoldingWriter.new, CLState.initial⟩

/-- `ContentLine::name` via `name_writer`: `assert_eq!(state, Initial)`,
move to `AfterName`, then write through the `NameWriter` wrapping the
folding writer. -/

def ContentLine.name (cl : ContentLine) (s : List Nat) : Outcome ContentLine :=
  if cl.state = CLState.initial then
    if !(encode s).all nameOK then .fmtError
    else
      match cl.inner.write_str (encode s) with
      | .ok fw => .ok ⟨fw, CLState.afterName⟩
      | .error _ => .fmtError
  else .panic

/-- `ContentLine::param_name` via `param_name_writer`:
`assert!(state == AfterName || state == AfterParamValue)`, move to
`AfterParamName`, write `;`, then write through the `NameWriter`. -/

def ContentLine.param_name (cl : ContentLine) (s : List Nat) : Outcome ContentLine :=
  if cl.state = CLState.afterName ∨ cl.state = CLState.afterParamValue then
    match cl.inner.write_str (encode [59]) with
    | .error _ => .fmtError
    | .ok fw =>
      if !(encode s).all nameOK then .fmtError
      else
        match fw.write_str (encode s) with
        | .ok fw' => .ok ⟨fw', CLState.afterParamName⟩
        | .error _ => .fmtError
  else .panic

/-- `ContentLine::goto_param_value_state`:
`assert!(state == AfterParamName || state == AfterParamValue)`, write
`=` on the first value after a parameter name and `,` on each later
one, and move to `AfterParamValue`. -/

def ContentLine.goto_param_value_state (cl : ContentLine) : Outcome FoldingWriter :=
  if cl.state = CLState.afterParamName ∨ cl.state = CLState.afterParamValue then
    match cl.inner.write_str
        (encode [if cl.state = CLState.afterParamName then 61 else 44]) with
    | .ok fw => .ok fw
    | .error _ => .fmtError
  else .panic

/-- `ContentLine::param_value_unquoted`: the separator from
`goto_param_value_state`, then the value through the
`ParamtextWriter`. -/

def ContentLine.param_value_unquoted (cl : ContentLine) (s : List Nat) : Outcome ContentLine :=
  match cl.goto_param_value_state with
  | .panic => .panic
  | .fmtError => .fmtError
  | .ok fw =>
    if !(encode s).all safeOK then .fmtError
    else
      match fw.write_str (encode s) with
      | .ok fw' => .ok ⟨fw', CLState.afterParamValue⟩
      | .error _ => .fmtError

/-- `ContentLine::param_value_quoted`: the separator from
`goto_param_value_state`, then `QuotedStringWriter::new` (opening `"`),
the value through the quoted-string validation, and `close`
(closing `"`). -/

def ContentLine.param_value_quoted (cl : ContentLine) (s : List Nat) : Outcome ContentLine :=
  match cl.goto_param_value_state with
  | .panic => .panic
  | .fmtError => .fmtError
  | .ok fw =>
    match fw.write_str (encode [34]) with
    | .error _ => .fmtError
    | .ok fw' =>
      if !(encode s).all qsafeOK then .fmtError
      else
        match fw'.write_str (encode s) with
        | .error _ => .fmtError
        | .ok fw'' =>
          match fw''.write_str (encode [34]) with
          | .error _ => .fmtError
          | .ok fw₃ => .ok ⟨fw₃, CLState.afterParamValue⟩

/-- `ContentLine::value` via `value_writer` and
`ValueTupleWriter::next_value_writer`:
`assert!(state == AfterName || state == AfterParamValue)`, move to
`Value`, write `:`, then write the (first) value slot through the
`TextWriter` escaping into the folding writer. -/

def ContentLine.value (cl : ContentLine) (s : List Nat) : Outcome ContentLine :=
  if cl.state = CLState.afterName ∨ cl.state = CLState.afterParamValue then
    match cl.inner.write_str (encode [58]) with
    | .error _ => .fmtError
    | .ok fw =>
      match fw.write_str (encode (TextWriter.write_str s)) with
      | .ok fw' => .ok ⟨fw', CLState.value⟩
      | .error _ => .fmtError
  else .panic

/-- `ContentLine::eol`: `assert_eq!(state, Value)`, then the folding
writer's end-of-line. -/

def ContentLine.eol (cl : ContentLine) : Outcome FoldingWriter :=
  if cl.state = CLState.value then .ok cl.inner.eol else .panic

/-! Helper lemmas for content-line reasoning. -/






def Outcome.bind {α β : Type} (o : Outcome α) (f : α → Outcome β) : Outcome β :=
  match o with
  | .ok a => f a
  | .fmtError => .fmtError
  | .panic => .panic

/-- Concrete case 4 of the specification: property `X-PARAM-TEST`, a
parameter `LIST` holding an unquoted and a quoted value, value
`value`, mirroring the source's `content_line_param_value_list` test. -/

def caseFour : Outcome FoldingWriter :=
  (ContentLine.new.name (str "X-PARAM-TEST")).bind fun cl =>
  (cl.param_name (str "LIST")).bind fun cl =>
  (cl.param_value_unquoted (str "unquoted text")).bind fun cl =>
  (cl.param_value_quoted (str "Quoted text, with comma and a ;")).bind fun cl =>
  (cl.value (str "value")).bind fun cl =>
  cl.eol









/-! Composite value composition (`write/composite_value_types.rs` with
`structure/composite_value_types.rs`). The trait machinery is modelled
by passing the registered `NAME` constants explicitly: a `ValueType` is
represented by its `NAME`, and the formatter output of the active Rust
value by an explicit character list. -/

/-- `ValueTypeChoice for Any2<T0, T1>`: `type DefaultType = T0`. -/

def any2DefaultName (t0Name t1Name : List Nat) : List Nat := t0Name

/-- `ValueTypeChoice for Any3<T0, T1, T2>`: `type DefaultType = T0`. -/

def any3DefaultName (t0Name t1Name t2Name : List Nat) : List Nat := t0Name

/-- `PropertyValueWriter::param` applied to the `Value` parameter
(`NAME = "VALUE"`, one unquoted `Name` item): the parameter name, then
the active type's name as an unquoted parameter value. -/

def writeValueParam (cl : ContentLine) (activeName : List Nat) : Outcome ContentLine :=
  (cl.param_name (str "VALUE")).bind fun cl => cl.param_value_unquoted activeName

/-- `AsCompositeValueType<Any2<T0,T1>>::write_into`: emit the `VALUE`
parameter exactly when the active type's registered name differs from
the default's, then begin the value and write the single slot. -/

def any2WriteInto (t0Name t1Name activeName body : List Nat) (cl : ContentLine) :
    Outcome ContentLine :=
  (if activeName ≠ any2DefaultName t0Name t1Name then writeValueParam cl activeName
    else .ok cl).bind fun cl => cl.value body

/-- `AsCompositeValueType<Any3<T0,T1,T2>>::write_into`: as for `Any2`;
the source's condition literally compares against `Any2<T0,T1>`'s
default type name. -/

def any3WriteInto (t0Name t1Name t2Name activeName body : List Nat) (cl : ContentLine) :
    Outcome ContentLine :=
  (if activeName ≠ any2DefaultName t0Name t1Name then writeValueParam cl activeName
    else .ok cl).bind fun cl => cl.value body

/-- Modelled from the spec: the comma-separated slot loop of
`ValueListWriter` (the file `write/content_line.rs` declaring it is
absent from the source tree) — each item's formatter in iteration
order, `,` inserted between items, every slot written through the TEXT
escaper like a tuple slot. -/

def valueListGo (fw : FoldingWriter) (first : Bool) : List (List Nat) → Outcome FoldingWriter
  | [] => .ok fw
  | item :: rest =>
    match (if first then Except.ok fw else fw.write_str (encode [44])) with
    | .error _ => .fmtError
    | .ok fw' =>
      match fw'.write_str (encode (TextWriter.write_str item)) with
      | .error _ => .fmtError
      | .ok fw'' => valueListGo fw'' false rest

/-- Modelled from the spec: `value_list_writer` — begin the value
(`:`) in a valid state, then the comma-separated slots; zero items is
legal and produces an empty value. -/

def ContentLine.value_list (cl : ContentLine) (items : List (List Nat)) : Outcome ContentLine :=
  if cl.state = CLState.afterName ∨ cl.state = CLState.afterParamValue then
    match cl.inner.write_str (encode [58]) with
    | .error _ => .fmtError
    | .ok fw =>
      match valueListGo fw true items with
      | .ok fw' => .ok ⟨fw', CLState.value⟩
      | .fmtError => .fmtError
      | .panic => .panic
  else .panic

/-- `AsCompositeValueType<List<VT>>::write_into`: emit the `VALUE`
parameter exactly when the item type's registered name differs from
`VT::DefaultType`'s, then write the list slots. -/

def listWriteInto (defaultName activeName : List Nat) (items : List (List Nat))
    (cl : ContentLine) : Outcome ContentLine :=
  (if activeName ≠ defaultName then writeValueParam cl activeName
    else .ok cl).bind fun cl => cl.value_list items

/-- Characters of the comma-separated list value. -/

def listChars (first : Bool) : List (List Nat) → List Nat
  | [] => []
  | item :: rest =>
    (if first then [] else [44]) ++ TextWriter.write_str item ++ listChars false rest

/-! Definitions end here; the verification theorems follow. -/




set_option maxRecDepth 40000 in
example :
    (FoldingWriter.new.write_str (encode (str "simple test"))).map
      (fun fw => fw.eol.out) = .ok (encode (str "simple test\r\n")) := by rfl

set_option maxRecDepth 40000 in
example :
    (FoldingWriter.new.write_str (encode (str
      "test string exceeding 75 chars, all ASCII, to see that it does indeed get folded"))).map
      (fun fw => fw.eol.out) =
    .ok (encode (str
      "test string exceeding 75 chars, all ASCII, to see that it does indeed get f\r\n olded\r\n")) := by rfl

set_option maxRecDepth 40000 in
example :
    (FoldingWriter.new.write_str (encode (str
      "test string exceeding 75 chars, with a multi-byte UTF-8 character juust " ++
      [0x1F90F] ++ str " at the fold"))).map
      (fun fw => fw.eol.out) =
    .ok (encode (str
      "test string exceeding 75 chars, with a multi-byte UTF-8 character juust \r\n " ++
      [0x1F90F] ++ str " at the fold\r\n")) := by rfl

set_option maxRecDepth 4000 in
theorem contB_eq_range : ∀ x, x < 256 → contB x = decide (0x80 ≤ x ∧ x < 0xc0) := by decide

theorem contB_of_range {x : Nat} (h1 : 0x80 ≤ x) (h2 : x < 0xc0) : contB x = true := by
  rw [contB_eq_range x (by omega)]; simp; omega

theorem contB_false_of_lt {x : Nat} (h : x < 0x80) : contB x = false := by
  rw [contB_eq_range x (by omega)]; simp; omega

theorem contB_false_of_ge {x : Nat} (h1 : 0xc0 ≤ x) (h2 : x < 256) : contB x = false := by
  rw [contB_eq_range x h2]; simp; omega

theorem isCtl_false_of_ge {x : Nat} (h : 0x20 ≤ x) (h2 : x ≠ 0x7f) : isCtl x = false := by
  simp [isCtl]; omega

theorem utf8Encode1_ascii {c : Nat} (h : c < 0x80) : utf8Encode1 c = [c] := by
  simp [utf8Encode1, h]

theorem utf8Encode1_length {c : Nat} :
    1 ≤ (utf8Encode1 c).length ∧ (utf8Encode1 c).length ≤ 4 := by
  unfold utf8Encode1
  split <;> [skip; split] <;> [simp; skip; split] <;> simp

theorem utf8Encode1_ne_nil {c : Nat} : utf8Encode1 c ≠ [] := by
  have := utf8Encode1_length (c := c)
  intro h
  rw [h] at this
  simp at this

theorem utf8Encode1_lt_256 {c : Nat} (h : c < 0x110000) :
    ∀ x ∈ utf8Encode1 c, x < 256 := by
  unfold utf8Encode1
  split
  case isTrue h1 => simp; omega
  case isFalse h1 =>
    split
    case isTrue h2 =>
      have : c / 64 < 32 := by omega
      have : c % 64 < 64 := Nat.mod_lt _ (by omega)
      simp; omega
    case isFalse h2 =>
      split
      case isTrue h3 =>
        have : c / 4096 < 16 := by omega
        have : c / 64 % 64 < 64 := Nat.mod_lt _ (by omega)
        have : c % 64 < 64 := Nat.mod_lt _ (by omega)
        simp; omega
      case isFalse h3 =>
        have : c / 262144 < 5 := by omega
        have : c / 4096 % 64 < 64 := Nat.mod_lt _ (by omega)
        have : c / 64 % 64 < 64 := Nat.mod_lt _ (by omega)
        have : c % 64 < 64 := Nat.mod_lt _ (by omega)
        simp; omega

theorem utf8Encode1_multibyte_ge {c : Nat} (h : 0x80 ≤ c) :
    ∀ x ∈ utf8Encode1 c, 0x80 ≤ x := by
  unfold utf8Encode1
  split
  case isTrue h1 => omega
  case isFalse h1 =>
    split
    case isTrue h2 =>
      have : 2 ≤ c / 64 := by omega
      simp; omega
    case isFalse h2 =>
      split
      case isTrue h3 => simp; omega
      case isFalse h3 => simp; omega

theorem utf8Encode1_head_not_cont {c : Nat} (h : c < 0x110000) :
    contB ((utf8Encode1 c).getD 0 0) = false := by
  unfold utf8Encode1
  split
  case isTrue h1 =>
    rw [List.getD_cons_zero]
    exact contB_false_of_lt h1
  case isFalse h1 =>
    split
    case isTrue h2 =>
      have h3 : c / 64 < 32 := by omega
      rw [List.getD_cons_zero]
      exact contB_false_of_ge (by omega) (by omega)
    case isFalse h2 =>
      split
      case isTrue h3 =>
        have : c / 4096 < 16 := by omega
        rw [List.getD_cons_zero]
        exact contB_false_of_ge (by omega) (by omega)
      case isFalse h3 =>
        have : c / 262144 < 5 := by omega
        rw [List.getD_cons_zero]
        exact contB_false_of_ge (by omega) (by omega)

theorem utf8Encode1_tail_cont {c : Nat} (h : c < 0x110000) :
    ∀ i, 1 ≤ i → i < (utf8Encode1 c).length → contB ((utf8Encode1 c).getD i 0) = true := by
  have hm1 : c % 64 < 64 := Nat.mod_lt _ (by omega)
  have hm2 : c / 64 % 64 < 64 := Nat.mod_lt _ (by omega)
  have hm3 : c / 4096 % 64 < 64 := Nat.mod_lt _ (by omega)
  intro i h1 h2
  unfold utf8Encode1 at h2 ⊢
  split at h2
  case isTrue => simp at h2; omega
  case isFalse hc1 =>
    split at h2
    case isTrue hc2 =>
      simp at h2
      match i with
      | 1 =>
        simp [hc1, hc2]
        exact contB_of_range (by omega) (by omega)
    case isFalse hc2 =>
      split at h2
      case isTrue hc3 =>
        simp at h2
        match i with
        | 1 =>
          simp [hc1, hc2, hc3]
          exact contB_of_range (by omega) (by omega)
        | 2 =>
          simp [hc1, hc2, hc3]
          exact contB_of_range (by omega) (by omega)
      case isFalse hc3 =>
        simp at h2
        match i with
        | 1 =>
          simp [hc1, hc2, hc3]
          exact contB_of_range (by omega) (by omega)
        | 2 =>
          simp [hc1, hc2, hc3]
          exact contB_of_range (by omega) (by omega)
        | 3 =>
          simp [hc1, hc2, hc3]
          exact contB_of_range (by omega) (by omega)

theorem utf8Encode1_ctl_free {c : Nat} (h : GoodChar c) :
    ∀ x ∈ utf8Encode1 c, isCtl x = false := by
  obtain ⟨⟨hlt, -⟩, hctl⟩ := h
  by_cases hc : c < 0x80
  · rw [utf8Encode1_ascii hc]
    simpa using hctl
  · intro x hx
    have := utf8Encode1_multibyte_ge (by omega) x hx
    exact isCtl_false_of_ge (by omega) (by omega)

theorem utf8Encode1_any_isCtl {c : Nat} (h : ValidScalar c) :
    (utf8Encode1 c).any isCtl = isCtl c := by
  by_cases hc : c < 0x80
  · rw [utf8Encode1_ascii hc]; simp
  · have hge := utf8Encode1_multibyte_ge (c := c) (by omega)
    have h1 : (utf8Encode1 c).any isCtl = false := by
      rw [List.any_eq_false]
      intro x hx
      simp only [Bool.not_eq_true]
      exact isCtl_false_of_ge (by have := hge x hx; omega) (by have := hge x hx; omega)
    rw [h1, isCtl_false_of_ge (by omega) (by omega)]

theorem encode_nil : encode [] = [] := rfl

theorem encode_cons {c : Nat} {cs : List Nat} :
    encode (c :: cs) = utf8Encode1 c ++ encode cs := by
  simp [encode]

theorem encode_append {a b : List Nat} : encode (a ++ b) = encode a ++ encode b := by
  simp [encode]

theorem encode_ascii {cs : List Nat} (h : ∀ c ∈ cs, c < 0x80) : encode cs = cs := by
  induction cs with
  | nil => rfl
  | cons c cs ih =>
    rw [encode_cons, utf8Encode1_ascii (h c (by simp)), ih (fun x hx => h x (by simp [hx]))]
    rfl

theorem getD_append_left {u v : List Nat} {i : Nat} (h : i < u.length) :
    (u ++ v).getD i 0 = u.getD i 0 := by
  simp [List.getD, List.getElem?_append_left h]

theorem getD_append_right (u v : List Nat) (i : Nat) :
    (u ++ v).getD (u.length + i) 0 = v.getD i 0 := by
  simp [List.getD, List.getElem?_append_right]

theorem encode_head_not_cont {cs : List Nat} (h : ∀ c ∈ cs, c < 0x110000) :
    contB ((encode cs).getD 0 0) = false := by
  cases cs with
  | nil => simp [encode_nil, List.getD, contB]
  | cons c cs =>
    rw [encode_cons,
      getD_append_left (by have := utf8Encode1_length (c := c); omega)]
    exact utf8Encode1_head_not_cont (h c (by simp))

theorem encode_any_isCtl {cs : List Nat} (h : ∀ c ∈ cs, ValidScalar c) :
    (encode cs).any isCtl = cs.any isCtl := by
  induction cs with
  | nil => rfl
  | cons c cs ih =>
    rw [encode_cons, List.any_append, utf8Encode1_any_isCtl (h c (by simp)),
      ih (fun x hx => h x (by simp [hx]))]
    rfl

theorem encode_ctl_free {cs : List Nat} (h : ∀ c ∈ cs, GoodChar c) :
    ∀ x ∈ encode cs, isCtl x = false := by
  induction cs with
  | nil => simp [encode_nil]
  | cons c cs ih =>
    rw [encode_cons]
    intro x hx
    rcases List.mem_append.mp hx with hx | hx
    · exact utf8Encode1_ctl_free (h c (by simp)) x hx
    · exact ih (fun y hy => h y (by simp [hy])) x hx

theorem scanBack_le {b : List Nat} : ∀ e, scanBack b e ≤ e := by
  intro e
  induction e with
  | zero => simp [scanBack]
  | succ e ih =>
    rw [scanBack]
    split
    · omega
    · omega

theorem scanBack_zero {b : List Nat} :
    ∀ e, (∀ i, 1 ≤ i → i ≤ e → contB (b.getD i 0) = true) → scanBack b e = 0 := by
  intro e
  induction e with
  | zero => simp [scanBack]
  | succ e ih =>
    intro h
    rw [scanBack, if_pos (h (e + 1) (by omega) (by omega))]
    exact ih (fun i h1 h2 => h i h1 (by omega))

theorem scanBack_shift {u b : List Nat} (hu : 1 ≤ u.length)
    (hb : contB (b.getD 0 0) = false) :
    ∀ e, scanBack (u ++ b) (u.length + e) = u.length + scanBack b e := by
  intro e
  induction e with
  | zero =>
    obtain ⟨k, hk⟩ : ∃ k, u.length = k + 1 := ⟨u.length - 1, by omega⟩
    have hidx : (u ++ b).getD (k + 1) 0 = b.getD 0 0 := by
      have h0 := getD_append_right u b 0
      rw [Nat.add_zero] at h0
      rw [← hk]
      exact h0
    rw [Nat.add_zero, hk]
    conv_lhs => rw [scanBack]
    rw [hidx, hb]
    simp [scanBack]
  | succ e ih =>
    have hidx : (u ++ b).getD (u.length + e + 1) 0 = b.getD (e + 1) 0 := by
      have h0 := getD_append_right u b (e + 1)
      rw [← Nat.add_assoc] at h0
      exact h0
    rw [show u.length + (e + 1) = (u.length + e) + 1 by omega]
    conv_lhs => rw [scanBack]
    conv_rhs => rw [scanBack]
    rw [hidx]
    split
    · rw [ih]
    · omega

/-- The backward scan on the UTF-8 encoding of a string lands exactly on
the start of the scalar-value encoding that contains byte position
`rem`: there is a decomposition `es = es₁ ++ c :: es₂` with the scan
returning the byte length of `encode es₁`, which fits within `rem`,
while including `c`'s encoding would overshoot `rem`. -/
theorem scanBack_boundary {es : List Nat} :
    ∀ rem, (∀ c ∈ es, c < 0x110000) → rem < (encode es).length →
    ∃ es₁ c es₂, es = es₁ ++ c :: es₂ ∧
      scanBack (encode es) rem = (encode es₁).length ∧
      (encode es₁).length ≤ rem ∧
      rem < (encode es₁).length + (utf8Encode1 c).length := by
  induction es with
  | nil => intro rem _ hlt; simp [encode_nil] at hlt
  | cons c es ih =>
    intro rem hval hlt
    have hcv : c < 0x110000 := hval c (by simp)
    have hk := utf8Encode1_length (c := c)
    by_cases hrem : rem < (utf8Encode1 c).length
    · refine ⟨[], c, es, by simp, ?_, by simp [encode_nil], by simp [encode_nil, hrem]⟩
      rw [encode_cons]
      have hz : scanBack (utf8Encode1 c ++ encode es) rem = 0 := by
        apply scanBack_zero
        intro i h1 h2
        rw [getD_append_left (by omega)]
        exact utf8Encode1_tail_cont hcv i h1 (by omega)
      simp [encode_nil, hz]
    · have hes_ne : es ≠ [] := by
        intro h
        rw [encode_cons, h, encode_nil] at hlt
        simp at hlt
        omega
      have hlt' : rem - (utf8Encode1 c).length < (encode es).length := by
        rw [encode_cons] at hlt
        simp at hlt
        omega
      obtain ⟨es₁, c', es₂, hsplit, hscan, hle, hlt2⟩ :=
        ih (rem - (utf8Encode1 c).length) (fun x hx => hval x (by simp [hx])) hlt'
      refine ⟨c :: es₁, c', es₂, by simp [hsplit], ?_, ?_, ?_⟩
      · rw [encode_cons]
        have hshift := scanBack_shift (u := utf8Encode1 c) (b := encode es)
          (by omega)
          (encode_head_not_cont (fun x hx => hval x (by simp [hx])))
          (rem - (utf8Encode1 c).length)
        rw [show (utf8Encode1 c).length + (rem - (utf8Encode1 c).length) = rem by omega] at hshift
        rw [hshift, hscan, encode_cons]
        simp
      · rw [encode_cons]
        simp
        omega
      · rw [encode_cons]
        simp
        omega

theorem pieceBounds_all {ps : List (List Nat)} (h : PieceBounds 74 ps) :
    ∀ q ∈ ps, (encode q).length ≤ 74 := by
  cases ps with
  | nil => simp
  | cons p rest =>
    intro q hq
    rcases List.mem_cons.mp hq with hq | hq
    · subst hq; exact h.1
    · exact h.2 q hq

theorem foldLoopF_spec :
    ∀ (fuel : Nat) (es out : List Nat) (rem : Nat),
    (∀ c ∈ es, c < 0x110000) →
    2 * (encode es).length + (if 74 ≤ rem then 1 else 2) ≤ fuel →
    ∃ (ps : List (List Nat)) (last : List Nat),
      foldLoopF fuel out rem (encode es) =
        .ok (out ++ (ps.map pieceOut).flatten, if ps.isEmpty then rem else 74, encode last) ∧
      es = ps.flatten ++ last ∧
      (encode last).length ≤ (if ps.isEmpty then rem else 74) ∧
      PieceBounds rem ps := by
  intro fuel
  induction fuel with
  | zero =>
    intro es out rem _ hfuel
    split at hfuel <;> omega
  | succ fuel ih =>
    intro es out rem hval hfuel
    by_cases hexit : (encode es).length ≤ rem
    · refine ⟨[], es, ?_, by simp, by simpa using hexit, trivial⟩
      simp [foldLoopF, hexit]
    · obtain ⟨es₁, c, es₂, hsplit, hscan, hle, hlt2⟩ :=
        scanBack_boundary rem hval (by omega)
      have hk := utf8Encode1_length (c := c)
      have henc : encode es = encode es₁ ++ encode (c :: es₂) := by
        rw [hsplit, encode_append]
      have hlen : (encode es).length = (encode es₁).length + (encode (c :: es₂)).length := by
        rw [henc]; simp
      have htake : (encode es).take (scanBack (encode es) rem) = encode es₁ := by
        rw [hscan, henc]; simp
      have hdrop : (encode es).drop (scanBack (encode es) rem) = encode (c :: es₂) := by
        rw [hscan, henc]; simp
      have hlenc : (encode (c :: es₂)).length ≥ 1 := by
        rw [encode_cons]
        simp
        omega
      have hfuel' : 2 * (encode (c :: es₂)).length + (if 74 ≤ (74 : Nat) then 1 else 2) ≤ fuel := by
        simp only [le_refl, if_pos]
        split at hfuel <;> omega
      obtain ⟨ps', last, hres, hflat, hlast, hbounds⟩ :=
        ih (c :: es₂) (out ++ encode es₁ ++ CONTINUATION) 74
          (by intro x hx; exact hval x (by rw [hsplit]; simp at hx ⊢; tauto)) hfuel'
      refine ⟨es₁ :: ps', last, ?_, ?_, ?_, ?_⟩
      · rw [show foldLoopF (fuel + 1) out rem (encode es) =
          foldLoopF fuel (out ++ (encode es).take (scanBack (encode es) rem) ++ CONTINUATION)
            74 ((encode es).drop (scanBack (encode es) rem)) by
            simp only [foldLoopF]
            rw [if_neg hexit]]
        rw [htake, hdrop, hres]
        simp [pieceOut]
      · rw [hsplit]
        simp at hflat ⊢
        rw [← hflat]
      · simpa using hlast
      · exact ⟨hle, pieceBounds_all hbounds⟩

/-- Successful `write_str` runs decompose the fragment at scalar-value
boundaries into folded pieces and a final chunk, extend the sink
accordingly, and leave `rem_line_len` as the entered (or, after folding,
the post-continuation 74) budget minus the final chunk's length. -/
theorem write_str_spec {fw : FoldingWriter} {es : List Nat}
    (hval : ∀ c ∈ es, ValidScalar c) (hctl : ∀ c ∈ es, isCtl c = false) :
    ∃ (ps : List (List Nat)) (last : List Nat),
      fw.write_str (encode es) = .ok
        { out := fw.out ++ (ps.map pieceOut).flatten ++ encode last,
          rem_line_len := (if ps.isEmpty then fw.rem_line_len else 74) - (encode last).length,
          passed_eol := fw.passed_eol } ∧
      es = ps.flatten ++ last ∧
      (encode last).length ≤ (if ps.isEmpty then fw.rem_line_len else 74) ∧
      PieceBounds fw.rem_line_len ps := by
  have hany : (encode es).any isCtl = false := by
    rw [encode_any_isCtl hval, List.any_eq_false]
    intro c hc
    simp [hctl c hc]
  obtain ⟨ps, last, hres, hflat, hlast, hbounds⟩ :=
    foldLoopF_spec (2 * (encode es).length + 2) es fw.out fw.rem_line_len
      (fun c hc => (hval c hc).1) (by split <;> omega)
  refine ⟨ps, last, ?_, hflat, hlast, hbounds⟩
  rw [FoldingWriter.write_str, if_neg (by simp [hany]), hres]

/-- `write_str` on a Rust `&str` fails exactly when the fragment holds a
forbidden control byte. -/
theorem write_str_error_iff {fw : FoldingWriter} {es : List Nat}
    (hval : ∀ c ∈ es, ValidScalar c) :
    fw.write_str (encode es) = .error () ↔ es.any isCtl = true := by
  constructor
  · intro herr
    by_contra hany
    obtain ⟨ps, last, hres, -, -, -⟩ := write_str_spec hval (by
      intro c hc
      have := List.any_eq_false.mp (by simpa using hany) c hc
      simpa using this)
    rw [hres] at herr
    exact Except.noConfusion herr
  · intro hany
    rw [FoldingWriter.write_str, if_pos]
    rw [encode_any_isCtl hval]
    exact hany

theorem pieceBounds_append {closed : List (List Nat)} {x : List Nat} {rest : List (List Nat)}
    (h : PieceBounds 75 closed)
    (hx : (encode x).length ≤ (if closed.isEmpty then 75 else 74))
    (hrest : ∀ q ∈ rest, (encode q).length ≤ 74) :
    PieceBounds 75 (closed ++ x :: rest) := by
  cases closed with
  | nil => exact ⟨by simpa using hx, hrest⟩
  | cons c₀ cs₀ =>
    refine ⟨h.1, ?_⟩
    intro q hq
    have hq' : q ∈ cs₀ ∨ q = x ∨ q ∈ rest := by simpa using hq
    rcases hq' with hq | hq | hq
    · exact h.2 q hq
    · subst hq
      simpa using hx
    · exact hrest q hq

theorem Inv_new : Inv FoldingWriter.new [] := by
  refine ⟨[], [], by simp, by simp, by simp [encode_nil, FoldingWriter.new], trivial, ?_, rfl⟩
  simp [encode_nil, FoldingWriter.new, MAX_LINE_LENGTH]

theorem Inv_write_str {fw : FoldingWriter} {cs ds : List Nat}
    (hInv : Inv fw cs) (hds : ∀ c ∈ ds, GoodChar c) :
    ∃ fw', fw.write_str (encode ds) = .ok fw' ∧ Inv fw' (cs ++ ds) := by
  obtain ⟨closed, cur, hcs, hgood, hout, hcb, hbudget, heol⟩ := hInv
  obtain ⟨ps, last, hres, hflat, hlast, hbounds⟩ :=
    write_str_spec (fun c hc => (hds c hc).1) (fun c hc => (hds c hc).2)
  have hgood' : ∀ c ∈ cs ++ ds, GoodChar c := by
    intro c hc
    rcases List.mem_append.mp hc with hc | hc
    · exact hgood c hc
    · exact hds c hc
  refine ⟨_, hres, ?_⟩
  cases ps with
  | nil =>
    refine ⟨closed, cur ++ last, ?_, hgood', ?_, hcb, ?_, heol⟩
    · rw [hcs, hflat]
      simp
    · rw [hout, encode_append]
      simp
    · have hlast' : (encode last).length ≤ fw.rem_line_len := by simpa using hlast
      have hb : (if ([] : List (List Nat)).isEmpty = true then fw.rem_line_len else 74) =
          fw.rem_line_len := by simp
      rw [encode_append, hb]
      simp only [List.length_append]
      omega
  | cons p₀ rest =>
    have hlast74 : (encode last).length ≤ 74 := by simpa using hlast
    have hp₀ : (encode p₀).length ≤ fw.rem_line_len := hbounds.1
    refine ⟨closed ++ (cur ++ p₀) :: rest, last, ?_, hgood', ?_, ?_, ?_, heol⟩
    · rw [hcs, hflat]
      simp
    · rw [hout]
      simp only [List.map_append, List.map_cons, List.flatten_append, List.flatten_cons,
        pieceOut, encode_append]
      simp [List.append_assoc]
    · refine pieceBounds_append hcb ?_ hbounds.2
      rw [encode_append]
      simp only [List.length_append]
      omega
    · have hne : (closed ++ (cur ++ p₀) :: rest).isEmpty = false := by simp
      rw [hne]
      simp
      omega

theorem Inv_writeAll {fw : FoldingWriter} {cs : List Nat} {frags : List (List Nat)}
    (hInv : Inv fw cs) (hfr : ∀ frag ∈ frags, ∀ c ∈ frag, GoodChar c) :
    ∃ fw', writeAll fw frags = .ok fw' ∧ Inv fw' (cs ++ frags.flatten) := by
  induction frags generalizing fw cs with
  | nil => exact ⟨fw, rfl, by simpa using hInv⟩
  | cons s rest ih =>
    obtain ⟨fw', hres, hInv'⟩ := Inv_write_str hInv (hfr s (by simp))
    obtain ⟨fw'', hres', hInv''⟩ := ih hInv' (fun frag hfrag => hfr frag (by simp [hfrag]))
    refine ⟨fw'', ?_, by simpa [List.append_assoc] using hInv''⟩
    rw [writeAll, hres]
    exact hres'

theorem splitCRLF_crlf {rest : List Nat} :
    splitCRLF (13 :: 10 :: rest) = [] :: splitCRLF rest := by
  rw [splitCRLF, if_pos ⟨rfl, rfl⟩]

theorem splitCRLF_cons {x : Nat} {l : List Nat} (hx : x ≠ 13) :
    splitCRLF (x :: l) = consHead x (splitCRLF l) := by
  match l with
  | [] => simp [splitCRLF, consHead]
  | y :: rest =>
    rw [splitCRLF, if_neg (by tauto)]
    cases h : splitCRLF (y :: rest) with
    | nil => simp [consHead]
    | cons a as => simp [consHead]

theorem splitCRLF_append_crlf {l : List Nat} (rest : List Nat) (h13 : 13 ∉ l) :
    splitCRLF (l ++ 13 :: 10 :: rest) = l :: splitCRLF rest := by
  induction l with
  | nil => simpa using splitCRLF_crlf
  | cons a l' ih =>
    have ha : a ≠ 13 := by
      intro h
      exact h13 (by simp [h])
    have ih' := ih (by intro h; exact h13 (by simp [h]))
    rw [show (a :: l') ++ 13 :: 10 :: rest = a :: (l' ++ 13 :: 10 :: rest) by simp,
      splitCRLF_cons ha, ih']
    simp [consHead]

theorem stripCont_marker {q : List Nat} :
    stripCont (13 :: 10 :: 32 :: q) = stripCont q := by
  rw [stripCont, if_pos ⟨rfl, rfl, rfl⟩]

theorem stripCont_no13 : ∀ l : List Nat, 13 ∉ l → stripCont l = l := by
  intro l
  induction l with
  | nil => simp [stripCont]
  | cons x t ih =>
    intro h
    have hx : x ≠ 13 := by
      intro hh
      exact h (by simp [hh])
    have ht : 13 ∉ t := by
      intro hh
      exact h (by simp [hh])
    rcases t with - | ⟨y, t'⟩
    · simp [stripCont]
    · rcases t' with - | ⟨z, t''⟩
      · simp [stripCont]
      · rw [stripCont, if_neg (by tauto), ih ht]

theorem stripCont_append_marker {p : List Nat} (q : List Nat) (h13 : 13 ∉ p) :
    stripCont (p ++ 13 :: 10 :: 32 :: q) = p ++ stripCont q := by
  induction p with
  | nil => simpa using stripCont_marker
  | cons a p' ih =>
    have ha : a ≠ 13 := by
      intro h
      exact h13 (by simp [h])
    have ih' := ih (by intro h; exact h13 (by simp [h]))
    rcases p' with - | ⟨b, p''⟩
    · rw [show ([a] ++ 13 :: 10 :: 32 :: q) = a :: 13 :: 10 :: 32 :: q by simp,
        stripCont, if_neg (by omega), stripCont_marker]
      simp
    · rcases p'' with - | ⟨c, p₃⟩
      · rw [show ((a :: [b]) ++ 13 :: 10 :: 32 :: q) = a :: b :: 13 :: 10 :: 32 :: q by simp,
          stripCont, if_neg (by tauto)]
        rw [show (b :: 13 :: 10 :: 32 :: q) = [b] ++ 13 :: 10 :: 32 :: q by simp, ih']
        simp
      · rw [show ((a :: b :: c :: p₃) ++ 13 :: 10 :: 32 :: q) =
          a :: b :: c :: (p₃ ++ 13 :: 10 :: 32 :: q) by simp,
          stripCont, if_neg (by tauto)]
        rw [show (b :: c :: (p₃ ++ 13 :: 10 :: 32 :: q)) =
          (b :: c :: p₃) ++ 13 :: 10 :: 32 :: q by simp, ih']
        simp

theorem encode_no13 {cs : List Nat} (h : ∀ c ∈ cs, GoodChar c) : 13 ∉ encode cs := by
  intro hmem
  have := encode_ctl_free h 13 hmem
  simp [isCtl] at this

/-- Removing every continuation marker from a reachable sink recovers the
UTF-8 bytes of everything written. -/
theorem stripCont_fold {closed : List (List Nat)} {cur : List Nat}
    (hc : ∀ p ∈ closed, 13 ∉ encode p) (hcur : 13 ∉ encode cur) :
    stripCont ((closed.map pieceOut).flatten ++ encode cur) =
      encode (closed.flatten ++ cur) := by
  induction closed with
  | nil => simpa using stripCont_no13 _ hcur
  | cons c₀ rest ih =>
    have step : (((c₀ :: rest).map pieceOut).flatten ++ encode cur) =
        encode c₀ ++ 13 :: 10 :: 32 :: ((rest.map pieceOut).flatten ++ encode cur) := by
      simp [pieceOut, CONTINUATION]
    rw [step, stripCont_append_marker _ (hc c₀ (by simp)),
      ih (fun p hp => hc p (by simp [hp]))]
    rw [encode_append]
    simp [encode_append]

theorem splitCRLF_fold {closed : List (List Nat)} {cur : List Nat}
    (hc : ∀ p ∈ closed, 13 ∉ encode p) (hcur : 13 ∉ encode cur) :
    splitCRLF ((closed.map pieceOut).flatten ++ encode cur ++ CRLF) =
      foldedLines closed cur ++ [[]] := by
  induction closed with
  | nil =>
    have : encode cur ++ CRLF = encode cur ++ 13 :: 10 :: [] := by simp [CRLF]
    simp only [List.map_nil, List.flatten_nil, List.nil_append, this]
    rw [splitCRLF_append_crlf [] hcur]
    simp [foldedLines, splitCRLF]
  | cons c₀ rest ih =>
    have step : (((c₀ :: rest).map pieceOut).flatten ++ encode cur ++ CRLF) =
        encode c₀ ++ 13 :: 10 :: (32 :: ((rest.map pieceOut).flatten ++ encode cur ++ CRLF)) := by
      simp [pieceOut, CONTINUATION]
    rw [step, splitCRLF_append_crlf _ (hc c₀ (by simp)),
      splitCRLF_cons (by omega), ih (fun p hp => hc p (by simp [hp]))]
    cases rest with
    | nil => simp [foldedLines, consHead]
    | cons c₁ rest' => simp [foldedLines, consHead]

theorem foldedLines_bound {closed : List (List Nat)} {cur : List Nat} {rem : Nat}
    (hcb : PieceBounds 75 closed)
    (hbudget : (encode cur).length + rem = (if closed.isEmpty then 75 else 74)) :
    ∀ l ∈ foldedLines closed cur ++ [[]], l.length ≤ 75 := by
  intro l hl
  rcases List.mem_append.mp hl with hl | hl
  · cases closed with
    | nil =>
      simp [foldedLines] at hl
      subst hl
      simp at hbudget
      omega
    | cons c₀ rest =>
      simp only [foldedLines, List.mem_cons] at hl
      rcases hl with hl | hl
      · subst hl
        exact hcb.1
      · obtain ⟨l', hl', rfl⟩ := List.mem_map.mp hl
        rcases List.mem_append.mp hl' with hl' | hl'
        · obtain ⟨q, hq, rfl⟩ := List.mem_map.mp hl'
          have := hcb.2 q hq
          simp
          omega
        · simp at hl'
          subst hl'
          simp at hbudget
          simp
          omega
  · simp at hl
    subst hl
    simp

theorem mem_flatten_of_mem {c : Nat} {p : List Nat} {ll : List (List Nat)}
    (hp : p ∈ ll) (hc : c ∈ p) : c ∈ ll.flatten :=
  List.mem_flatten.mpr ⟨p, hp, hc⟩

/-- C1: after any sequence of successful `write_str` calls on a fresh
`FoldingWriter` followed by `eol`, every physical line of the output
(octets between consecutive CRLFs, the CRLF itself excluded) is at most
75 octets long, and the output decomposes as whole-scalar-value pieces
separated by the continuation marker, so no inserted CRLF+SPACE falls
strictly inside a multi-byte UTF-8 codepoint of the input. -/
theorem folding_lines_at_most_75 {frags : List (List Nat)} {fw : FoldingWriter}
    (hgood : ∀ frag ∈ frags, ∀ c ∈ frag, GoodChar c)
    (hrun : writeAll FoldingWriter.new frags = .ok fw) :
    (∀ l ∈ splitCRLF fw.eol.out, l.length ≤ 75) ∧
    (∃ (closed : List (List Nat)) (cur : List Nat),
      frags.flatten = closed.flatten ++ cur ∧
      fw.eol.out = (closed.map pieceOut).flatten ++ encode cur ++ CRLF) := by
  obtain ⟨fw', hres, hInv⟩ := Inv_writeAll Inv_new hgood
  rw [hrun] at hres
  have hfw : fw = fw' := Except.ok.inj hres
  subst hfw
  obtain ⟨closed, cur, hcs, hgood', hout, hcb, hbudget, -⟩ := hInv
  simp only [List.nil_append] at hcs hgood'
  have hc13 : ∀ p ∈ closed, 13 ∉ encode p := by
    intro p hp
    apply encode_no13
    intro c hc
    exact hgood' c (by rw [hcs]; exact List.mem_append_left _ (mem_flatten_of_mem hp hc))
  have hcur13 : 13 ∉ encode cur := by
    apply encode_no13
    intro c hc
    exact hgood' c (by rw [hcs]; exact List.mem_append_right _ hc)
  have heolout : fw.eol.out = (closed.map pieceOut).flatten ++ encode cur ++ CRLF := by
    rw [FoldingWriter.eol, hout]
  refine ⟨?_, closed, cur, hcs, heolout⟩
  intro l hl
  rw [heolout, splitCRLF_fold hc13 hcur13] at hl
  exact foldedLines_bound hcb hbudget l hl

set_option maxRecDepth 100000 in
/-- C1 witness: a concrete 80-octet ASCII fragment folds into physical
lines of length 75, 6 and 0, all within the 75-octet bound. -/
theorem folding_lines_at_most_75_witness :
    (∀ l ∈ splitCRLF (FoldingWriter.eol
      { out := encode (str
          "test string exceeding 75 chars, all ASCII, to see that it does indeed get f\r\n olded"),
        rem_line_len := 69, passed_eol := false }).out, l.length ≤ 75) ∧
    (∃ (closed : List (List Nat)) (cur : List Nat),
      (([str "test string exceeding 75 chars, all ASCII, to see that it does indeed get folded"] :
        List (List Nat)).flatten = closed.flatten ++ cur) ∧
      (FoldingWriter.eol
        { out := encode (str
            "test string exceeding 75 chars, all ASCII, to see that it does indeed get f\r\n olded"),
          rem_line_len := 69, passed_eol := false }).out =
        (closed.map pieceOut).flatten ++ encode cur ++ CRLF) :=
  @folding_lines_at_most_75
    [str "test string exceeding 75 chars, all ASCII, to see that it does indeed get folded"]
    { out := encode (str
        "test string exceeding 75 chars, all ASCII, to see that it does indeed get f\r\n olded"),
      rem_line_len := 69, passed_eol := false }
    (by decide) (by rfl)

/-- C2: for fragments free of forbidden control bytes, writing them
through a `FoldingWriter` and then deleting every occurrence of the
CRLF SPACE continuation marker from the output reconstructs the
concatenation of the fragments exactly. -/
theorem folding_strip_roundtrip {frags : List (List Nat)} {fw : FoldingWriter}
    (hgood : ∀ frag ∈ frags, ∀ c ∈ frag, GoodChar c)
    (hrun : writeAll FoldingWriter.new frags = .ok fw) :
    stripCont fw.out = encode frags.flatten := by
  obtain ⟨fw', hres, hInv⟩ := Inv_writeAll Inv_new hgood
  rw [hrun] at hres
  have hfw : fw = fw' := Except.ok.inj hres
  subst hfw
  obtain ⟨closed, cur, hcs, hgood', hout, -, -, -⟩ := hInv
  simp only [List.nil_append] at hcs hgood'
  have hc13 : ∀ p ∈ closed, 13 ∉ encode p := by
    intro p hp
    apply encode_no13
    intro c hc
    exact hgood' c (by rw [hcs]; exact List.mem_append_left _ (mem_flatten_of_mem hp hc))
  have hcur13 : 13 ∉ encode cur := by
    apply encode_no13
    intro c hc
    exact hgood' c (by rw [hcs]; exact List.mem_append_right _ hc)
  rw [hout, stripCont_fold hc13 hcur13, hcs]

set_option maxRecDepth 100000 in
/-- C2 witness: the 80-octet ASCII fragment that folds once
round-trips: stripping the single continuation marker recovers it. -/
theorem folding_strip_roundtrip_witness :
    stripCont (encode (str
        "test string exceeding 75 chars, all ASCII, to see that it does indeed get f\r\n olded")) =
      encode ([str "test string exceeding 75 chars, all ASCII, to see that it does indeed get folded"] :
        List (List Nat)).flatten :=
  @folding_strip_roundtrip
    [str "test string exceeding 75 chars, all ASCII, to see that it does indeed get folded"]
    { out := encode (str
        "test string exceeding 75 chars, all ASCII, to see that it does indeed get f\r\n olded"),
      rem_line_len := 69, passed_eol := false }
    (by decide) (by rfl)

/-- C8: the line budget starts at 75; after every successful run of
writes it satisfies `rem_line_len ≤ 75` (it is a `Nat`, hence also
`0 ≤ rem_line_len`); and each `write_str` leaves the budget as the
entered budget (or 74 right after a continuation) minus the final
chunk's length, where that length never exceeds the budget being
subtracted from — the source's `rem_line_len -= b.len()` cannot
underflow. -/
theorem folding_budget_invariant :
    FoldingWriter.new.rem_line_len = 75 ∧
    (∀ (frags : List (List Nat)) (fw : FoldingWriter),
      (∀ frag ∈ frags, ∀ c ∈ frag, GoodChar c) →
      writeAll FoldingWriter.new frags = .ok fw → fw.rem_line_len ≤ 75) ∧
    (∀ (fw : FoldingWriter) (es : List Nat), (∀ c ∈ es, GoodChar c) →
      ∃ (ps : List (List Nat)) (last : List Nat),
        fw.write_str (encode es) = .ok
          { out := fw.out ++ (ps.map pieceOut).flatten ++ encode last,
            rem_line_len := (if ps.isEmpty then fw.rem_line_len else 74) - (encode last).length,
            passed_eol := fw.passed_eol } ∧
        (encode last).length ≤ (if ps.isEmpty then fw.rem_line_len else 74)) := by
  refine ⟨rfl, ?_, ?_⟩
  · intro frags fw hgood hrun
    obtain ⟨fw', hres, hInv⟩ := Inv_writeAll Inv_new hgood
    rw [hrun] at hres
    obtain rfl : fw = fw' := by
      cases hres
      rfl
    obtain ⟨closed, cur, -, -, -, -, hbudget, -⟩ := hInv
    split at hbudget <;> omega
  · intro fw es hgood
    obtain ⟨ps, last, hres, -, hlast, -⟩ :=
      write_str_spec (fun c hc => (hgood c hc).1) (fun c hc => (hgood c hc).2)
    exact ⟨ps, last, hres, hlast⟩

/-- C8 witness: instantiating the budget facts at a concrete writer
state and fragment. -/
theorem folding_budget_invariant_witness :
    FoldingWriter.new.rem_line_len = 75 ∧
    FoldingWriter.new.rem_line_len ≤ 75 ∧
    (∃ (ps : List (List Nat)) (last : List Nat),
      FoldingWriter.new.write_str (encode (str "abc")) = .ok
        { out := FoldingWriter.new.out ++ (ps.map pieceOut).flatten ++ encode last,
          rem_line_len := (if ps.isEmpty then FoldingWriter.new.rem_line_len else 74) -
            (encode last).length,
          passed_eol := FoldingWriter.new.passed_eol } ∧
      (encode last).length ≤ (if ps.isEmpty then FoldingWriter.new.rem_line_len else 74)) :=
  ⟨folding_budget_invariant.1,
   folding_budget_invariant.2.1 [] FoldingWriter.new (by decide) (by rfl),
   folding_budget_invariant.2.2 FoldingWriter.new (str "abc") (by decide)⟩

/-- C9: on a valid-UTF-8 fragment entering the folding loop (so the
budget is below the fragment's byte length), the backward codepoint
scan moves back at most 3 positions — so it runs at most 3 iterations —
stays within the indices `scanBack … ≤ rem < b.length`, and stops on a
non-continuation byte, never needing to step below index 0. -/
theorem folding_scan_bounded {es : List Nat} {rem : Nat}
    (hval : ∀ c ∈ es, ValidScalar c)
    (hlt : rem < (encode es).length) :
    scanBack (encode es) rem ≤ rem ∧
    rem - scanBack (encode es) rem ≤ 3 ∧
    contB ((encode es).getD (scanBack (encode es) rem) 0) = false := by
  obtain ⟨es₁, c, es₂, hsplit, hscan, hle, hlt2⟩ :=
    scanBack_boundary rem (fun c hc => (hval c hc).1) hlt
  have hk := utf8Encode1_length (c := c)
  refine ⟨by omega, by omega, ?_⟩
  rw [hscan, hsplit, encode_append]
  have h0 : (encode es₁).length = (encode es₁).length + 0 := by omega
  rw [h0, getD_append_right]
  refine encode_head_not_cont ?_
  intro x hx
  have hxes : x ∈ es := by
    rw [hsplit]
    exact List.mem_append_right _ hx
  exact (hval x hxes).1

/-- C9 witness: the scan on a concrete fragment whose fold point lands
inside a four-byte emoji steps back 3 positions onto its lead byte. -/
theorem folding_scan_bounded_witness :
    scanBack (encode (str "ab" ++ [0x1F90F])) 4 ≤ 4 ∧
    4 - scanBack (encode (str "ab" ++ [0x1F90F])) 4 ≤ 3 ∧
    contB ((encode (str "ab" ++ [0x1F90F])).getD (scanBack (encode (str "ab" ++ [0x1F90F])) 4) 0) =
      false :=
  @folding_scan_bounded (str "ab" ++ [0x1F90F]) 4 (by decide) (by decide)

theorem isCtl_iff {x : Nat} : isCtl x = true ↔ x ≤ 8 ∨ (10 ≤ x ∧ x ≤ 31) ∨ x = 127 := by
  simp [isCtl]
  omega

theorem nameOK_false_iff {x : Nat} :
    nameOK x = false ↔
      ¬((48 ≤ x ∧ x ≤ 57) ∨ (65 ≤ x ∧ x ≤ 90) ∨ (97 ≤ x ∧ x ≤ 122) ∨ x = 45) := by
  simp [nameOK]
  omega

theorem safeOK_false_iff {x : Nat} :
    safeOK x = false ↔
      (x < 0x20 ∧ x ≠ 9) ∨ x = 0x7f ∨ x = 34 ∨ x = 59 ∨ x = 58 ∨ x = 44 := by
  simp [safeOK]
  omega

theorem qsafeOK_false_iff {x : Nat} :
    qsafeOK x = false ↔ (x < 0x20 ∧ x ≠ 9) ∨ x = 0x7f ∨ x = 34 := by
  simp [qsafeOK]
  omega

/-- C4: with a never-failing inner sink, each layer's `write_str` fails
exactly on its character class — the folding writer iff the fragment
holds a byte in 0x00–0x08, 0x0A–0x1F or 0x7F (HTAB allowed); the name
writer iff some byte is not ASCII alphanumeric or `-`; the paramtext
writer iff some byte is a non-HTAB control or `"`, `;`, `:`, `,`; the
quoted-string writer iff some byte is a non-HTAB control or `"` — and on
success each validating writer forwards the fragment's bytes unchanged
(the folding writer's forwarding, with continuation markers interleaved
at codepoint boundaries only, is the subject of C1/C2). -/
theorem writers_error_iff :
    (∀ (fw : FoldingWriter) (es : List Nat), (∀ c ∈ es, ValidScalar c) →
      (fw.write_str (encode es) = .error () ↔
        ∃ x ∈ encode es, x ≤ 0x08 ∨ (0x0A ≤ x ∧ x ≤ 0x1F) ∨ x = 0x7F)) ∧
    (∀ (w : NameWriter) (s : List Nat),
      (w.write_str s = .error () ↔
        ∃ x ∈ s, ¬((48 ≤ x ∧ x ≤ 57) ∨ (65 ≤ x ∧ x ≤ 90) ∨ (97 ≤ x ∧ x ≤ 122) ∨ x = 45)) ∧
      (w.write_str s ≠ .error () → w.write_str s = .ok ⟨w.inner ++ s⟩)) ∧
    (∀ (w : ParamtextWriter) (s : List Nat),
      (w.write_str s = .error () ↔
        ∃ x ∈ s, (x < 0x20 ∧ x ≠ 9) ∨ x = 0x7f ∨ x = 34 ∨ x = 59 ∨ x = 58 ∨ x = 44) ∧
      (w.write_str s ≠ .error () → w.write_str s = .ok ⟨w.inner ++ s⟩)) ∧
    (∀ (w : QuotedStringWriter) (s : List Nat),
      (w.write_str s = .error () ↔ ∃ x ∈ s, (x < 0x20 ∧ x ≠ 9) ∨ x = 0x7f ∨ x = 34) ∧
      (w.write_str s ≠ .error () → w.write_str s = .ok ⟨w.inner ++ s, w.is_closed⟩)) := by
  refine ⟨?_, ?_, ?_, ?_⟩
  · intro fw es hval
    rw [write_str_error_iff hval, ← encode_any_isCtl hval, List.any_eq_true]
    constructor
    · rintro ⟨x, hx, hctl⟩
      exact ⟨x, hx, isCtl_iff.mp hctl⟩
    · rintro ⟨x, hx, hcl⟩
      exact ⟨x, hx, isCtl_iff.mpr (by omega)⟩
  · intro w s
    have herr : (w.write_str s = .error ()) ↔ s.all nameOK = false := by
      rw [NameWriter.write_str]
      by_cases hall : s.all nameOK <;> simp [hall]
    constructor
    · rw [herr, List.all_eq_false]
      constructor
      · rintro ⟨x, hx, hbad⟩
        exact ⟨x, hx, nameOK_false_iff.mp (by simpa using hbad)⟩
      · rintro ⟨x, hx, hbad⟩
        exact ⟨x, hx, by simp [nameOK_false_iff.mpr hbad]⟩
    · intro hne
      have hall : s.all nameOK = true := by
        by_contra hh
        exact hne (herr.mpr (by simpa using hh))
      rw [NameWriter.write_str]
      simp [hall]
  · intro w s
    have herr : (w.write_str s = .error ()) ↔ s.all safeOK = false := by
      rw [ParamtextWriter.write_str]
      by_cases hall : s.all safeOK <;> simp [hall]
    constructor
    · rw [herr, List.all_eq_false]
      constructor
      · rintro ⟨x, hx, hbad⟩
        exact ⟨x, hx, safeOK_false_iff.mp (by simpa using hbad)⟩
      · rintro ⟨x, hx, hbad⟩
        exact ⟨x, hx, by simp [safeOK_false_iff.mpr hbad]⟩
    · intro hne
      have hall : s.all safeOK = true := by
        by_contra hh
        exact hne (herr.mpr (by simpa using hh))
      rw [ParamtextWriter.write_str]
      simp [hall]
  · intro w s
    have herr : (w.write_str s = .error ()) ↔ s.all qsafeOK = false := by
      rw [QuotedStringWriter.write_str]
      by_cases hall : s.all qsafeOK <;> simp [hall]
    constructor
    · rw [herr, List.all_eq_false]
      constructor
      · rintro ⟨x, hx, hbad⟩
        exact ⟨x, hx, qsafeOK_false_iff.mp (by simpa using hbad)⟩
      · rintro ⟨x, hx, hbad⟩
        exact ⟨x, hx, by simp [qsafeOK_false_iff.mpr hbad]⟩
    · intro hne
      have hall : s.all qsafeOK = true := by
        by_contra hh
        exact hne (herr.mpr (by simpa using hh))
      rw [QuotedStringWriter.write_str]
      simp [hall]

/-- C4 witness: the error classification applied to a control byte, a
space in a name, a `;` in a paramtext and a `"` in a quoted string. -/
theorem writers_error_iff_witness :
    ((FoldingWriter.new.write_str (encode [5]) = .error () ↔
        ∃ x ∈ encode [5], x ≤ 0x08 ∨ (0x0A ≤ x ∧ x ≤ 0x1F) ∨ x = 0x7F)) ∧
    ((NameWriter.new []).write_str (str "BAD NAME") = .error () ↔
      ∃ x ∈ str "BAD NAME",
        ¬((48 ≤ x ∧ x ≤ 57) ∨ (65 ≤ x ∧ x ≤ 90) ∨ (97 ≤ x ∧ x ≤ 122) ∨ x = 45)) ∧
    ((ParamtextWriter.new []).write_str (str "a;b") = .error () ↔
      ∃ x ∈ str "a;b",
        (x < 0x20 ∧ x ≠ 9) ∨ x = 0x7f ∨ x = 34 ∨ x = 59 ∨ x = 58 ∨ x = 44) ∧
    ((QuotedStringWriter.new []).write_str (str "a\"b") = .error () ↔
      ∃ x ∈ str "a\"b", (x < 0x20 ∧ x ≠ 9) ∨ x = 0x7f ∨ x = 34) :=
  ⟨writers_error_iff.1 FoldingWriter.new [5] (by decide),
   (writers_error_iff.2.1 (NameWriter.new []) (str "BAD NAME")).1,
   (writers_error_iff.2.2.1 (ParamtextWriter.new []) (str "a;b")).1,
   (writers_error_iff.2.2.2 (QuotedStringWriter.new []) (str "a\"b")).1⟩

/-- C10: each writer validates the whole fragment before forwarding any
byte, so a rejected `write_str` call leaves the inner sink exactly as it
was before the call. -/
theorem writers_reject_atomically :
    (∀ (fw : FoldingWriter) (s : List Nat), (∃ x ∈ s, isCtl x = true) →
      (fw.write_str_run s).2 = false ∧ ((fw.write_str_run s).1).out = fw.out) ∧
    (∀ (w : NameWriter) (s : List Nat), (∃ x ∈ s, nameOK x = false) →
      (w.write_str_run s).2 = false ∧ ((w.write_str_run s).1).inner = w.inner) ∧
    (∀ (w : ParamtextWriter) (s : List Nat), (∃ x ∈ s, safeOK x = false) →
      (w.write_str_run s).2 = false ∧ ((w.write_str_run s).1).inner = w.inner) ∧
    (∀ (w : QuotedStringWriter) (s : List Nat), (∃ x ∈ s, qsafeOK x = false) →
      (w.write_str_run s).2 = false ∧ ((w.write_str_run s).1).inner = w.inner) := by
  refine ⟨?_, ?_, ?_, ?_⟩
  · rintro fw s ⟨x, hx, hctl⟩
    have hany : s.any isCtl = true := List.any_eq_true.mpr ⟨x, hx, hctl⟩
    rw [FoldingWriter.write_str_run, FoldingWriter.write_str, if_pos hany]
    exact ⟨rfl, rfl⟩
  · rintro w s ⟨x, hx, hbad⟩
    have hall : s.all nameOK = false := by
      rw [List.all_eq_false]
      exact ⟨x, hx, by simp [hbad]⟩
    rw [NameWriter.write_str_run, NameWriter.write_str]
    simp only [hall]
    exact ⟨rfl, rfl⟩
  · rintro w s ⟨x, hx, hbad⟩
    have hall : s.all safeOK = false := by
      rw [List.all_eq_false]
      exact ⟨x, hx, by simp [hbad]⟩
    rw [ParamtextWriter.write_str_run, ParamtextWriter.write_str]
    simp only [hall]
    exact ⟨rfl, rfl⟩
  · rintro w s ⟨x, hx, hbad⟩
    have hall : s.all qsafeOK = false := by
      rw [List.all_eq_false]
      exact ⟨x, hx, by simp [hbad]⟩
    rw [QuotedStringWriter.write_str_run, QuotedStringWriter.write_str]
    simp only [hall]
    exact ⟨rfl, rfl⟩

/-- C10 witness: a rejected fragment leaves each writer's sink intact at
a concrete state. -/
theorem writers_reject_atomically_witness :
    ((FoldingWriter.new.write_str_run [65, 5]).2 = false ∧
      ((FoldingWriter.new.write_str_run [65, 5]).1).out = FoldingWriter.new.out) ∧
    (((NameWriter.new (str "X")).write_str_run (str "a b")).2 = false ∧
      (((NameWriter.new (str "X")).write_str_run (str "a b")).1).inner = str "X") ∧
    (((ParamtextWriter.new (str "X")).write_str_run (str "a:b")).2 = false ∧
      (((ParamtextWriter.new (str "X")).write_str_run (str "a:b")).1).inner = str "X") ∧
    (((QuotedStringWriter.new (str "X")).write_str_run (str "a\"b")).2 = false ∧
      (((QuotedStringWriter.new (str "X")).write_str_run (str "a\"b")).1).inner =
        str "X" ++ [34]) :=
  ⟨writers_reject_atomically.1 FoldingWriter.new [65, 5] (by decide),
   writers_reject_atomically.2.1 (NameWriter.new (str "X")) (str "a b") (by decide),
   writers_reject_atomically.2.2.1 (ParamtextWriter.new (str "X")) (str "a:b") (by decide),
   writers_reject_atomically.2.2.2 (QuotedStringWriter.new (str "X")) (str "a\"b") (by decide)⟩

theorem textWriterGo_irrel : ∀ f1 f2 : Nat, ∀ s : List Nat,
    s.length < f1 → s.length < f2 → textWriterGo f1 s = textWriterGo f2 s := by
  intro f1
  induction f1 with
  | zero =>
    intro f2 s h1 h2
    omega
  | succ f1 ih =>
    intro f2 s h1 h2
    obtain ⟨f2', rfl⟩ : ∃ k, f2 = k + 1 := ⟨f2 - 1, by omega⟩
    rw [textWriterGo, textWriterGo]
    cases hidx : s.findIdx? isTextSpecial with
    | none => rfl
    | some idx =>
      have hlt : idx < s.length := by
        have := List.findIdx?_eq_some_iff_findIdx_eq.mp hidx
        omega
      simp only [hidx]
      rw [ih f2' (s.drop (idx + 1)) (by simp; omega) (by simp; omega)]

theorem textUnescape_backslash {d : Nat} {R : List Nat} :
    textUnescape (92 :: d :: R) = (if d = 110 ∨ d = 78 then 10 else d) :: textUnescape R := by
  rw [textUnescape]
  simp

theorem textUnescape_cons {c d : Nat} {R : List Nat} (hc : c ≠ 92) :
    textUnescape (c :: d :: R) = c :: textUnescape (d :: R) := by
  rw [textUnescape, if_neg hc]

theorem textWriter_nil : TextWriter.write_str [] = [] := rfl

theorem textWriter_eq_some {s : List Nat} {idx : Nat}
    (h : s.findIdx? isTextSpecial = some idx) :
    TextWriter.write_str s =
      s.take idx ++ [92, if s.getD idx 0 == 10 then 110 else s.getD idx 0] ++
        TextWriter.write_str (s.drop (idx + 1)) := by
  have hlt : idx < s.length := by
    have := List.findIdx?_eq_some_iff_findIdx_eq.mp h
    omega
  rw [TextWriter.write_str, TextWriter.write_str, textWriterGo]
  simp only [h]
  rw [textWriterGo_irrel s.length ((s.drop (idx + 1)).length + 1) (s.drop (idx + 1))
    (by simp; omega) (by simp)]

theorem textWriter_eq_none {s : List Nat} (h : s.findIdx? isTextSpecial = none) :
    TextWriter.write_str s = s := by
  rw [TextWriter.write_str, textWriterGo]
  simp only [h]

theorem textWriter_cons {c : Nat} {rest : List Nat} :
    TextWriter.write_str (c :: rest) = escapeChar c ++ TextWriter.write_str rest := by
  by_cases hsp : isTextSpecial c
  · rw [@textWriter_eq_some (c :: rest) 0
      (by rw [List.findIdx?_cons, if_pos hsp])]
    rw [escapeChar, if_pos hsp]
    simp
  · rw [escapeChar, if_neg hsp]
    cases hj : rest.findIdx? isTextSpecial with
    | none =>
      rw [textWriter_eq_none (s := c :: rest)
          (by rw [List.findIdx?_cons, if_neg hsp, List.findIdx?_succ, hj]; rfl),
        textWriter_eq_none hj]
      simp
    | some j =>
      rw [@textWriter_eq_some (c :: rest) (j + 1)
          (by rw [List.findIdx?_cons, if_neg hsp, List.findIdx?_succ, hj]; rfl),
        textWriter_eq_some hj]
      simp [List.take_succ_cons, List.getD_cons_succ, List.drop_succ_cons]

theorem textWriter_eq_map (s : List Nat) :
    TextWriter.write_str s = (s.map escapeChar).flatten := by
  induction s with
  | nil => simpa using textWriter_nil
  | cons c rest ih =>
    rw [textWriter_cons, ih]
    simp

theorem textUnescape_textWriter (s : List Nat) :
    textUnescape (TextWriter.write_str s) = s := by
  rw [textWriter_eq_map]
  induction s with
  | nil => simp [textUnescape]
  | cons c rest ih =>
    simp only [List.map_cons, List.flatten_cons]
    by_cases hsp : isTextSpecial c
    · rw [escapeChar, if_pos hsp]
      have hc : ((c = 92 ∨ c = 10) ∨ c = 59) ∨ c = 44 := by
        simpa [isTextSpecial] using hsp
      rcases hc with ((rfl | rfl) | rfl) | rfl <;>
        simp [textUnescape_backslash, ih]
    · rw [escapeChar, if_neg hsp]
      have hc92 : c ≠ 92 := by
        intro h
        exact hsp (by simp [isTextSpecial, h])
      cases hrest : (rest.map escapeChar).flatten with
      | nil =>
        have : rest = [] := by
          cases rest with
          | nil => rfl
          | cons r rs =>
            exfalso
            have : escapeChar r ≠ [] := by
              rw [escapeChar]
              split <;> simp
            simp at hrest
            exact this hrest.1
        subst this
        simp [textUnescape]
      | cons d ds =>
        rw [show ([c] : List Nat) ++ d :: ds = c :: d :: ds by simp,
          textUnescape_cons hc92, ← hrest, ih]

/-- C3: `TextWriter::write_str` applies exactly the character-by-character
substitutions backslash→backslash-backslash, newline→backslash-n,
semicolon→backslash-semicolon, comma→backslash-comma and nothing else;
consequently the standard unescaping map applied to its output
reconstructs the original string, for every input string. -/
theorem text_escaping_exact_and_invertible :
    (∀ s : List Nat, TextWriter.write_str s = (s.map escapeChar).flatten) ∧
    (∀ s : List Nat, textUnescape (TextWriter.write_str s) = s) :=
  ⟨textWriter_eq_map, textUnescape_textWriter⟩

/-- On a reachable folding writer, stripping continuation markers
recovers exactly the encoded characters written so far. -/
theorem Inv_stripCont {fw : FoldingWriter} {cs : List Nat} (h : Inv fw cs) :
    stripCont fw.out = encode cs := by
  obtain ⟨closed, cur, hcs, hgood, hout, -, -, -⟩ := h
  have hc13 : ∀ p ∈ closed, 13 ∉ encode p := by
    intro p hp
    apply encode_no13
    intro c hc
    exact hgood c (by rw [hcs]; exact List.mem_append_left _ (mem_flatten_of_mem hp hc))
  have hcur13 : 13 ∉ encode cur := by
    apply encode_no13
    intro c hc
    exact hgood c (by rw [hcs]; exact List.mem_append_right _ hc)
  rw [hout, stripCont_fold hc13 hcur13, hcs]

theorem nameOK_range {c : Nat} (h : nameOK c = true) : 45 ≤ c ∧ c ≤ 122 := by
  simp [nameOK] at h
  omega

theorem nameOK_GoodChar {c : Nat} (h : nameOK c = true) : GoodChar c := by
  have := nameOK_range h
  exact ⟨⟨by omega, by omega⟩, isCtl_false_of_ge (by omega) (by omega)⟩

theorem safeOK_of_isCtl {c : Nat} (h : isCtl c = true) : safeOK c = false := by
  rw [safeOK_false_iff]
  have := isCtl_iff.mp h
  omega

theorem qsafeOK_of_isCtl {c : Nat} (h : isCtl c = true) : qsafeOK c = false := by
  rw [qsafeOK_false_iff]
  have := isCtl_iff.mp h
  omega

theorem safeOK_GoodChar {c : Nat} (hv : ValidScalar c) (h : safeOK c = true) : GoodChar c := by
  refine ⟨hv, ?_⟩
  by_contra hh
  rw [safeOK_of_isCtl (by simpa using hh)] at h
  exact Bool.noConfusion h

theorem qsafeOK_GoodChar {c : Nat} (hv : ValidScalar c) (h : qsafeOK c = true) : GoodChar c := by
  refine ⟨hv, ?_⟩
  by_contra hh
  rw [qsafeOK_of_isCtl (by simpa using hh)] at h
  exact Bool.noConfusion h

/-- Byte-level validation holds for the encoding whenever the predicate
accepts every NON-US-ASCII byte and every character of the string. -/
theorem encode_all_of {p : Nat → Bool} (hp : ∀ x, 0x80 ≤ x → x < 256 → p x = true)
    {s : List Nat} (h : ∀ c ∈ s, c < 0x110000 ∧ p c = true) :
    (encode s).all p = true := by
  induction s with
  | nil => rfl
  | cons c rest ih =>
    rw [encode_cons, List.all_append]
    have hc := h c (by simp)
    have hu : (utf8Encode1 c).all p = true := by
      by_cases hlt : c < 0x80
      · rw [utf8Encode1_ascii hlt]
        simpa using hc.2
      · rw [List.all_eq_true]
        intro x hx
        exact hp x (utf8Encode1_multibyte_ge (by omega) x hx)
          (utf8Encode1_lt_256 hc.1 x hx)
    rw [hu, ih (fun x hx => h x (by simp [hx]))]
    rfl

/-- Characters emitted by the TEXT escaper are always acceptable to the
folding layer, provided the input holds no control character other than
newline (which is escaped away). -/
theorem textWriter_good {s : List Nat}
    (h : ∀ c ∈ s, ValidScalar c ∧ (isCtl c = false ∨ c = 10)) :
    ∀ c ∈ TextWriter.write_str s, GoodChar c := by
  rw [textWriter_eq_map]
  intro c hc
  obtain ⟨l, hl, hcl⟩ := List.mem_flatten.mp hc
  obtain ⟨c₀, hc₀, rfl⟩ := List.mem_map.mp hl
  rw [escapeChar] at hcl
  by_cases hsp : isTextSpecial c₀
  · rw [if_pos hsp] at hcl
    have hc4 : ((c₀ = 92 ∨ c₀ = 10) ∨ c₀ = 59) ∨ c₀ = 44 := by
      simpa [isTextSpecial] using hsp
    simp at hcl
    rcases hcl with rfl | rfl
    · exact (by decide : GoodChar 92)
    · rcases hc4 with ((rfl | rfl) | rfl) | rfl <;> simp <;> decide
  · rw [if_neg hsp] at hcl
    simp at hcl
    subst hcl
    have hgc := h _ hc₀
    refine ⟨hgc.1, ?_⟩
    rcases hgc.2 with hh | rfl
    · exact hh
    · exact absurd (by decide : isTextSpecial 10 = true) (by simpa using hsp)

/-- C6: every content-line operation invoked outside its valid states is
a fatal assertion failure (never a recoverable error return): `name`
only in `Initial`, `param_name` only in `AfterName`/`AfterParamValue`,
a parameter value write only in `AfterParamName`/`AfterParamValue`,
beginning the value only in `AfterName`/`AfterParamValue`, `eol` only in
`Value`; and in precisely the allowed states no assertion fires. -/
theorem contentline_state_contract :
    (∀ (cl : ContentLine) (s : List Nat),
      cl.state ≠ CLState.initial → cl.name s = .panic) ∧
    (∀ (cl : ContentLine) (s : List Nat),
      cl.state = CLState.initial → cl.name s ≠ .panic) ∧
    (∀ (cl : ContentLine) (s : List Nat),
      cl.state ≠ CLState.afterName ∧ cl.state ≠ CLState.afterParamValue →
        cl.param_name s = .panic) ∧
    (∀ (cl : ContentLine) (s : List Nat),
      cl.state = CLState.afterName ∨ cl.state = CLState.afterParamValue →
        cl.param_name s ≠ .panic) ∧
    (∀ (cl : ContentLine) (s : List Nat),
      cl.state ≠ CLState.afterParamName ∧ cl.state ≠ CLState.afterParamValue →
        cl.param_value_unquoted s = .panic ∧ cl.param_value_quoted s = .panic) ∧
    (∀ (cl : ContentLine) (s : List Nat),
      cl.state = CLState.afterParamName ∨ cl.state = CLState.afterParamValue →
        cl.param_value_unquoted s ≠ .panic ∧ cl.param_value_quoted s ≠ .panic) ∧
    (∀ (cl : ContentLine) (s : List Nat),
      cl.state ≠ CLState.afterName ∧ cl.state ≠ CLState.afterParamValue →
        cl.value s = .panic) ∧
    (∀ (cl : ContentLine) (s : List Nat),
      cl.state = CLState.afterName ∨ cl.state = CLState.afterParamValue →
        cl.value s ≠ .panic) ∧
    (∀ cl : ContentLine, cl.state ≠ CLState.value → cl.eol = .panic) ∧
    (∀ cl : ContentLine, cl.state = CLState.value → cl.eol ≠ .panic) := by
  have hgoto_panic : ∀ cl : ContentLine,
      cl.state ≠ CLState.afterParamName ∧ cl.state ≠ CLState.afterParamValue →
      cl.goto_param_value_state = .panic := by
    intro cl h
    rw [ContentLine.goto_param_value_state, if_neg (by tauto)]
  have hgoto_ok : ∀ cl : ContentLine,
      cl.state = CLState.afterParamName ∨ cl.state = CLState.afterParamValue →
      cl.goto_param_value_state ≠ .panic := by
    intro cl h
    rw [ContentLine.goto_param_value_state, if_pos h]
    split <;> simp
  refine ⟨?_, ?_, ?_, ?_, ?_, ?_, ?_, ?_, ?_, ?_⟩
  · intro cl s h
    rw [ContentLine.name, if_neg h]
  · intro cl s h
    rw [ContentLine.name, if_pos h]
    split
    · simp
    · split <;> simp
  · intro cl s h
    rw [ContentLine.param_name, if_neg (by tauto)]
  · intro cl s h
    rw [ContentLine.param_name, if_pos h]
    split
    · simp
    · split
      · simp
      · split <;> simp
  · intro cl s h
    constructor
    · rw [ContentLine.param_value_unquoted, hgoto_panic cl h]
    · rw [ContentLine.param_value_quoted, hgoto_panic cl h]
  · intro cl s h
    constructor
    · cases hg : cl.goto_param_value_state with
      | panic => exact absurd hg (hgoto_ok cl h)
      | fmtError => simp [ContentLine.param_value_unquoted, hg]
      | ok fw =>
        simp only [ContentLine.param_value_unquoted, hg]
        split
        · simp
        · split <;> simp
    · cases hg : cl.goto_param_value_state with
      | panic => exact absurd hg (hgoto_ok cl h)
      | fmtError => simp [ContentLine.param_value_quoted, hg]
      | ok fw =>
        simp only [ContentLine.param_value_quoted, hg]
        split
        · simp
        · split
          · simp
          · split
            · simp
            · split <;> simp
  · intro cl s h
    rw [ContentLine.value, if_neg (by tauto)]
  · intro cl s h
    rw [ContentLine.value, if_pos h]
    split
    · simp
    · split <;> simp
  · intro cl h
    rw [ContentLine.eol, if_neg h]
  · intro cl h
    rw [ContentLine.eol, if_pos h]
    simp

/-- C6 witness: the assertion discipline at concrete states — `name`
out of and in `Initial`, `eol` out of and in `Value`. -/
theorem contentline_state_contract_witness :
    (ContentLine.mk FoldingWriter.new CLState.value).name (str "A") = .panic ∧
    ContentLine.new.name (str "A") ≠ .panic ∧
    ContentLine.new.eol = .panic ∧
    (ContentLine.mk FoldingWriter.new CLState.value).eol ≠ .panic :=
  ⟨contentline_state_contract.1 _ (str "A") (by decide),
   contentline_state_contract.2.1 _ (str "A") (by decide),
   contentline_state_contract.2.2.2.2.2.2.2.2.1 _ (by decide),
   contentline_state_contract.2.2.2.2.2.2.2.2.2 _ (by decide)⟩

theorem safeOK_high : ∀ x : Nat, 0x80 ≤ x → safeOK x = true := by
  intro x h
  simp [safeOK]
  omega

theorem qsafeOK_high : ∀ x : Nat, 0x80 ≤ x → qsafeOK x = true := by
  intro x h
  simp [qsafeOK]
  omega

/-- Successful `param_name` in a valid state: one `;`, then the name. -/
theorem param_name_spec {cl : ContentLine} {cs s : List Nat}
    (hInv : Inv cl.inner cs)
    (hstate : cl.state = CLState.afterName ∨ cl.state = CLState.afterParamValue)
    (hs : ∀ c ∈ s, nameOK c = true) :
    ∃ fw', cl.param_name s = .ok ⟨fw', CLState.afterParamName⟩ ∧
      Inv fw' (cs ++ ([59] ++ s)) := by
  have hasc : ∀ c ∈ s, c < 0x80 := by
    intro c hc
    have := nameOK_range (hs c hc)
    omega
  have hgood : ∀ c ∈ s, GoodChar c := fun c hc => nameOK_GoodChar (hs c hc)
  obtain ⟨fw1, hw1, hInv1⟩ :=
    Inv_write_str hInv (by decide : ∀ c ∈ [(59 : Nat)], GoodChar c)
  obtain ⟨fw2, hw2, hInv2⟩ := Inv_write_str hInv1 hgood
  have hall : (encode s).all nameOK = true := by
    rw [encode_ascii hasc, List.all_eq_true]
    exact hs
  refine ⟨fw2, ?_, by simpa [List.append_assoc] using hInv2⟩
  rw [ContentLine.param_name, if_pos hstate, hw1]
  simp [hall, hw2]

/-- Successful `param_value_unquoted` in a valid state: `=` after a
parameter name, `,` after an earlier value, then the paramtext. -/
theorem param_value_unquoted_spec {cl : ContentLine} {cs s : List Nat}
    (hInv : Inv cl.inner cs)
    (hstate : cl.state = CLState.afterParamName ∨ cl.state = CLState.afterParamValue)
    (hs : ∀ c ∈ s, ValidScalar c ∧ safeOK c = true) :
    ∃ fw', cl.param_value_unquoted s = .ok ⟨fw', CLState.afterParamValue⟩ ∧
      Inv fw' (cs ++ ([if cl.state = CLState.afterParamName then 61 else 44] ++ s)) := by
  have hsep : ∀ c ∈ [if cl.state = CLState.afterParamName then (61 : Nat) else 44],
      GoodChar c := by
    split <;> decide
  have hgood : ∀ c ∈ s, GoodChar c := fun c hc =>
    safeOK_GoodChar (hs c hc).1 (hs c hc).2
  obtain ⟨fw1, hw1, hInv1⟩ := Inv_write_str hInv hsep
  obtain ⟨fw2, hw2, hInv2⟩ := Inv_write_str hInv1 hgood
  have hgoto : cl.goto_param_value_state = .ok fw1 := by
    rw [ContentLine.goto_param_value_state, if_pos hstate, hw1]
  have hall : (encode s).all safeOK = true :=
    encode_all_of (fun x hx _ => safeOK_high x hx)
      (fun c hc => ⟨(hs c hc).1.1, (hs c hc).2⟩)
  refine ⟨fw2, ?_, by simpa [List.append_assoc] using hInv2⟩
  simp only [ContentLine.param_value_unquoted, hgoto]
  simp [hall, hw2]

/-- Successful `param_value_quoted` in a valid state: the separator,
the opening `"`, the qsafe text, the closing `"`. -/
theorem param_value_quoted_spec {cl : ContentLine} {cs s : List Nat}
    (hInv : Inv cl.inner cs)
    (hstate : cl.state = CLState.afterParamName ∨ cl.state = CLState.afterParamValue)
    (hs : ∀ c ∈ s, ValidScalar c ∧ qsafeOK c = true) :
    ∃ fw', cl.param_value_quoted s = .ok ⟨fw', CLState.afterParamValue⟩ ∧
      Inv fw' (cs ++ ([if cl.state = CLState.afterParamName then 61 else 44] ++
        [34] ++ s ++ [34])) := by
  have hsep : ∀ c ∈ [if cl.state = CLState.afterParamName then (61 : Nat) else 44],
      GoodChar c := by
    split <;> decide
  have hgood : ∀ c ∈ s, GoodChar c := fun c hc =>
    qsafeOK_GoodChar (hs c hc).1 (hs c hc).2
  obtain ⟨fw1, hw1, hInv1⟩ := Inv_write_str hInv hsep
  obtain ⟨fw2, hw2, hInv2⟩ :=
    Inv_write_str hInv1 (by decide : ∀ c ∈ [(34 : Nat)], GoodChar c)
  obtain ⟨fw3, hw3, hInv3⟩ := Inv_write_str hInv2 hgood
  obtain ⟨fw4, hw4, hInv4⟩ :=
    Inv_write_str hInv3 (by decide : ∀ c ∈ [(34 : Nat)], GoodChar c)
  have hgoto : cl.goto_param_value_state = .ok fw1 := by
    rw [ContentLine.goto_param_value_state, if_pos hstate, hw1]
  have hall : (encode s).all qsafeOK = true :=
    encode_all_of (fun x hx _ => qsafeOK_high x hx)
      (fun c hc => ⟨(hs c hc).1.1, (hs c hc).2⟩)
  refine ⟨fw4, ?_, by simpa [List.append_assoc] using hInv4⟩
  simp only [ContentLine.param_value_quoted, hgoto]
  simp [hw2, hall, hw3, hw4]

/-- Successful `value` in a valid state: one `:`, then the
TEXT-escaped value slot. -/
theorem value_spec {cl : ContentLine} {cs s : List Nat}
    (hInv : Inv cl.inner cs)
    (hstate : cl.state = CLState.afterName ∨ cl.state = CLState.afterParamValue)
    (hs : ∀ c ∈ s, ValidScalar c ∧ (isCtl c = false ∨ c = 10)) :
    ∃ fw', cl.value s = .ok ⟨fw', CLState.value⟩ ∧
      Inv fw' (cs ++ ([58] ++ TextWriter.write_str s)) := by
  have hgood : ∀ c ∈ TextWriter.write_str s, GoodChar c := textWriter_good hs
  obtain ⟨fw1, hw1, hInv1⟩ :=
    Inv_write_str hInv (by decide : ∀ c ∈ [(58 : Nat)], GoodChar c)
  obtain ⟨fw2, hw2, hInv2⟩ := Inv_write_str hInv1 hgood
  refine ⟨fw2, ?_, by simpa [List.append_assoc] using hInv2⟩
  rw [ContentLine.value, if_pos hstate, hw1]
  simp [hw2]

set_option maxRecDepth 100000 in
/-- C5: on a content line, each parameter name is preceded by exactly
one `;`, the first parameter value after a parameter name by exactly
one `=`, each later value for the same parameter by exactly one `,`,
and the value by exactly one `:`, with no other separator punctuation
inserted; in particular the spec's concrete case 4 produces exactly
`X-PARAM-TEST;LIST=unquoted text,"Quoted text, with comma and a ;":value`
followed by CRLF. -/
theorem contentline_separators :
    (∀ (cl : ContentLine) (cs s : List Nat),
      Inv cl.inner cs →
      cl.state = CLState.afterName ∨ cl.state = CLState.afterParamValue →
      (∀ c ∈ s, nameOK c = true) →
      ∃ fw', cl.param_name s = .ok ⟨fw', CLState.afterParamName⟩ ∧
        stripCont fw'.out = stripCont cl.inner.out ++ [59] ++ s) ∧
    (∀ (cl : ContentLine) (cs s : List Nat),
      Inv cl.inner cs →
      cl.state = CLState.afterParamName ∨ cl.state = CLState.afterParamValue →
      (∀ c ∈ s, ValidScalar c ∧ safeOK c = true) →
      ∃ fw', cl.param_value_unquoted s = .ok ⟨fw', CLState.afterParamValue⟩ ∧
        stripCont fw'.out = stripCont cl.inner.out ++
          [if cl.state = CLState.afterParamName then 61 else 44] ++ encode s) ∧
    (∀ (cl : ContentLine) (cs s : List Nat),
      Inv cl.inner cs →
      cl.state = CLState.afterParamName ∨ cl.state = CLState.afterParamValue →
      (∀ c ∈ s, ValidScalar c ∧ qsafeOK c = true) →
      ∃ fw', cl.param_value_quoted s = .ok ⟨fw', CLState.afterParamValue⟩ ∧
        stripCont fw'.out = stripCont cl.inner.out ++
          [if cl.state = CLState.afterParamName then 61 else 44] ++
          [34] ++ encode s ++ [34]) ∧
    (∀ (cl : ContentLine) (cs s : List Nat),
      Inv cl.inner cs →
      cl.state = CLState.afterName ∨ cl.state = CLState.afterParamValue →
      (∀ c ∈ s, ValidScalar c ∧ (isCtl c = false ∨ c = 10)) →
      ∃ fw', cl.value s = .ok ⟨fw', CLState.value⟩ ∧
        stripCont fw'.out = stripCont cl.inner.out ++ [58] ++
          encode (TextWriter.write_str s)) ∧
    caseFour = .ok
      { out := encode (str
          "X-PARAM-TEST;LIST=unquoted text,\"Quoted text, with comma and a ;\":value\r\n"),
        rem_line_len := 4, passed_eol := true } := by
  refine ⟨?_, ?_, ?_, ?_, ?_⟩
  · intro cl cs s hInv hstate hs
    have hasc : ∀ c ∈ s, c < 0x80 := by
      intro c hc
      have := nameOK_range (hs c hc)
      omega
    obtain ⟨fw', hok, hInv'⟩ := param_name_spec hInv hstate hs
    refine ⟨fw', hok, ?_⟩
    rw [Inv_stripCont hInv', Inv_stripCont hInv, encode_append]
    rw [@encode_ascii ([59] ++ s) (by
      intro c hc
      rcases List.mem_append.mp hc with hc | hc
      · simp at hc
        omega
      · exact hasc c hc)]
    simp
  · intro cl cs s hInv hstate hs
    obtain ⟨fw', hok, hInv'⟩ := param_value_unquoted_spec hInv hstate hs
    refine ⟨fw', hok, ?_⟩
    rw [Inv_stripCont hInv', Inv_stripCont hInv, encode_append, encode_append]
    have : encode [if cl.state = CLState.afterParamName then (61 : Nat) else 44] =
        [if cl.state = CLState.afterParamName then (61 : Nat) else 44] := by
      split <;> rfl
    rw [this]
    simp
  · intro cl cs s hInv hstate hs
    obtain ⟨fw', hok, hInv'⟩ := param_value_quoted_spec hInv hstate hs
    refine ⟨fw', hok, ?_⟩
    rw [Inv_stripCont hInv', Inv_stripCont hInv]
    rw [show ([if cl.state = CLState.afterParamName then (61 : Nat) else 44] ++
      [34] ++ s ++ [34]) = [if cl.state = CLState.afterParamName then (61 : Nat) else 44] ++
      ([34] ++ s ++ [34]) by simp]
    rw [encode_append, encode_append, encode_append, encode_append]
    have : encode [if cl.state = CLState.afterParamName then (61 : Nat) else 44] =
        [if cl.state = CLState.afterParamName then (61 : Nat) else 44] := by
      split <;> rfl
    rw [this, show encode [34] = ([34] : List Nat) from rfl]
    simp
  · intro cl cs s hInv hstate hs
    obtain ⟨fw', hok, hInv'⟩ := value_spec hInv hstate hs
    refine ⟨fw', hok, ?_⟩
    rw [Inv_stripCont hInv', Inv_stripCont hInv, encode_append, encode_append]
    simp [show encode [58] = ([58] : List Nat) from rfl]
  · rfl

set_option maxRecDepth 100000 in
/-- C5 witness: the separator facts at a concrete content line, and the
concrete case 4 output. -/
theorem contentline_separators_witness :
    (∃ fw', (ContentLine.mk FoldingWriter.new CLState.afterName).param_name (str "LIST") =
        .ok ⟨fw', CLState.afterParamName⟩ ∧
      stripCont fw'.out = stripCont FoldingWriter.new.out ++ [59] ++ str "LIST") ∧
    caseFour = .ok
      { out := encode (str
          "X-PARAM-TEST;LIST=unquoted text,\"Quoted text, with comma and a ;\":value\r\n"),
        rem_line_len := 4, passed_eol := true } :=
  ⟨contentline_separators.1 (ContentLine.mk FoldingWriter.new CLState.afterName) [] (str "LIST")
      Inv_new (Or.inl rfl) (by decide),
   contentline_separators.2.2.2.2⟩

theorem writeValueParam_spec {cl : ContentLine} {cs active : List Nat}
    (hInv : Inv cl.inner cs)
    (hstate : cl.state = CLState.afterName ∨ cl.state = CLState.afterParamValue)
    (hact : ∀ c ∈ active, ValidScalar c ∧ safeOK c = true) :
    ∃ fw', writeValueParam cl active = .ok ⟨fw', CLState.afterParamValue⟩ ∧
      Inv fw' (cs ++ ([59] ++ str "VALUE" ++ [61] ++ active)) := by
  obtain ⟨fw1, hok1, hInv1⟩ := param_name_spec hInv hstate
    (by decide : ∀ c ∈ str "VALUE", nameOK c = true)
  obtain ⟨fw2, hok2, hInv2⟩ :=
    @param_value_unquoted_spec ⟨fw1, CLState.afterParamName⟩ _ _ hInv1 (Or.inl rfl) hact
  refine ⟨fw2, ?_, ?_⟩
  · rw [writeValueParam, hok1]
    exact hok2
  · refine (by simpa [List.append_assoc] using hInv2 : Inv fw2 _)

theorem valueListGo_spec :
    ∀ (items : List (List Nat)) (fw : FoldingWriter) (cs : List Nat) (first : Bool),
    Inv fw cs →
    (∀ i ∈ items, ∀ c ∈ i, ValidScalar c ∧ (isCtl c = false ∨ c = 10)) →
    ∃ fw', valueListGo fw first items = .ok fw' ∧
      Inv fw' (cs ++ listChars first items) := by
  intro items
  induction items with
  | nil =>
    intro fw cs first hInv _
    exact ⟨fw, rfl, by simpa [listChars] using hInv⟩
  | cons item rest ih =>
    intro fw cs first hInv hitems
    obtain ⟨fw0, hw0, hInv0⟩ :
        ∃ fw0, (if first then Except.ok fw else fw.write_str (encode [44])) =
          Except.ok fw0 ∧ Inv fw0 (cs ++ (if first then [] else [44])) := by
      cases first with
      | true => exact ⟨fw, rfl, by simpa using hInv⟩
      | false =>
        obtain ⟨fw0, hw0, hInv0⟩ :=
          Inv_write_str hInv (by decide : ∀ c ∈ [(44 : Nat)], GoodChar c)
        exact ⟨fw0, hw0, by simpa using hInv0⟩
    obtain ⟨fw1, hw1, hInv1⟩ :=
      Inv_write_str hInv0 (textWriter_good (hitems item (by simp)))
    obtain ⟨fw', hres, hInv'⟩ :=
      ih fw1 _ false hInv1 (fun i hi => hitems i (by simp [hi]))
    refine ⟨fw', ?_, ?_⟩
    · simp only [valueListGo, hw0, hw1, hres]
    · simp only [listChars]
      simpa [List.append_assoc] using hInv'

theorem value_list_spec {cl : ContentLine} {cs : List Nat} {items : List (List Nat)}
    (hInv : Inv cl.inner cs)
    (hstate : cl.state = CLState.afterName ∨ cl.state = CLState.afterParamValue)
    (hitems : ∀ i ∈ items, ∀ c ∈ i, ValidScalar c ∧ (isCtl c = false ∨ c = 10)) :
    ∃ fw', cl.value_list items = .ok ⟨fw', CLState.value⟩ ∧
      Inv fw' (cs ++ ([58] ++ listChars true items)) := by
  obtain ⟨fw1, hw1, hInv1⟩ :=
    Inv_write_str hInv (by decide : ∀ c ∈ [(58 : Nat)], GoodChar c)
  obtain ⟨fw', hres, hInv'⟩ := valueListGo_spec items fw1 _ true hInv1 hitems
  refine ⟨fw', ?_, ?_⟩
  · rw [ContentLine.value_list, if_pos hstate]
    simp only [hw1, hres]
  · simpa [List.append_assoc] using hInv'

theorem encode_str_VALUE : encode (str "VALUE") = str "VALUE" :=
  encode_ascii (by decide)

/-- C7: writing a Choice composite value (`Any2`, `Any3`, or a `List`
of a choice) emits a parameter named `VALUE` carrying the active value
type's registered name exactly when that name differs from the declared
default's (the first type argument of the choice), and the parameter is
emitted before the `:` that begins the value. -/
theorem choice_value_param_iff :
    (∀ (t0 t1 active body : List Nat) (cl : ContentLine) (cs : List Nat),
      Inv cl.inner cs →
      cl.state = CLState.afterName ∨ cl.state = CLState.afterParamValue →
      (∀ c ∈ active, ValidScalar c ∧ safeOK c = true) →
      (∀ c ∈ body, ValidScalar c ∧ (isCtl c = false ∨ c = 10)) →
      ∃ fw', any2WriteInto t0 t1 active body cl = .ok ⟨fw', CLState.value⟩ ∧
        stripCont fw'.out = stripCont cl.inner.out ++
          (if active = any2DefaultName t0 t1 then [] else
            [59] ++ str "VALUE" ++ [61] ++ encode active) ++
          ([58] ++ encode (TextWriter.write_str body))) ∧
    (∀ (t0 t1 t2 active body : List Nat) (cl : ContentLine) (cs : List Nat),
      Inv cl.inner cs →
      cl.state = CLState.afterName ∨ cl.state = CLState.afterParamValue →
      (∀ c ∈ active, ValidScalar c ∧ safeOK c = true) →
      (∀ c ∈ body, ValidScalar c ∧ (isCtl c = false ∨ c = 10)) →
      ∃ fw', any3WriteInto t0 t1 t2 active body cl = .ok ⟨fw', CLState.value⟩ ∧
        stripCont fw'.out = stripCont cl.inner.out ++
          (if active = any3DefaultName t0 t1 t2 then [] else
            [59] ++ str "VALUE" ++ [61] ++ encode active) ++
          ([58] ++ encode (TextWriter.write_str body))) ∧
    (∀ (dflt active : List Nat) (items : List (List Nat)) (cl : ContentLine) (cs : List Nat),
      Inv cl.inner cs →
      cl.state = CLState.afterName ∨ cl.state = CLState.afterParamValue →
      (∀ c ∈ active, ValidScalar c ∧ safeOK c = true) →
      (∀ i ∈ items, ∀ c ∈ i, ValidScalar c ∧ (isCtl c = false ∨ c = 10)) →
      ∃ fw', listWriteInto dflt active items cl = .ok ⟨fw', CLState.value⟩ ∧
        stripCont fw'.out = stripCont cl.inner.out ++
          (if active = dflt then [] else
            [59] ++ str "VALUE" ++ [61] ++ encode active) ++
          ([58] ++ encode (listChars true items))) := by
  have hchoice : ∀ (dfltName active body : List Nat) (cl : ContentLine) (cs : List Nat),
      Inv cl.inner cs →
      cl.state = CLState.afterName ∨ cl.state = CLState.afterParamValue →
      (∀ c ∈ active, ValidScalar c ∧ safeOK c = true) →
      (∀ c ∈ body, ValidScalar c ∧ (isCtl c = false ∨ c = 10)) →
      ∃ fw', ((if active ≠ dfltName then writeValueParam cl active
          else Outcome.ok cl).bind fun cl => cl.value body) = .ok ⟨fw', CLState.value⟩ ∧
        stripCont fw'.out = stripCont cl.inner.out ++
          (if active = dfltName then [] else
            [59] ++ str "VALUE" ++ [61] ++ encode active) ++
          ([58] ++ encode (TextWriter.write_str body)) := by
    intro dfltName active body cl cs hInv hstate hact hbody
    by_cases hdef : active = dfltName
    · obtain ⟨fw', hok, hInv'⟩ := value_spec hInv hstate hbody
      refine ⟨fw', ?_, ?_⟩
      · rw [if_neg (by simpa using hdef)]
        simp only [Outcome.bind, hok]
      · rw [Inv_stripCont hInv', Inv_stripCont hInv, if_pos hdef, encode_append,
          encode_append]
        simp [show encode [58] = ([58] : List Nat) from rfl]
    · obtain ⟨fw1, hok1, hInv1⟩ := writeValueParam_spec hInv hstate hact
      obtain ⟨fw2, hok2, hInv2⟩ :=
        @value_spec ⟨fw1, CLState.afterParamValue⟩ _ _ hInv1 (Or.inr rfl) hbody
      refine ⟨fw2, ?_, ?_⟩
      · rw [if_pos (by simpa using hdef)]
        simp only [Outcome.bind, hok1]
        exact hok2
      · rw [Inv_stripCont hInv2, Inv_stripCont hInv, if_neg hdef]
        simp only [encode_append, encode_str_VALUE]
        simp [List.append_assoc, show encode [59] = ([59] : List Nat) from rfl,
          show encode [61] = ([61] : List Nat) from rfl,
          show encode [58] = ([58] : List Nat) from rfl]

  refine ⟨?_, ?_, ?_⟩
  · intro t0 t1 active body cl cs hInv hstate hact hbody
    exact hchoice t0 active body cl cs hInv hstate hact hbody
  · intro t0 t1 t2 active body cl cs hInv hstate hact hbody
    exact hchoice t0 active body cl cs hInv hstate hact hbody
  · intro dflt active items cl cs hInv hstate hact hitems
    by_cases hdef : active = dflt
    · obtain ⟨fw', hok, hInv'⟩ := value_list_spec hInv hstate hitems
      refine ⟨fw', ?_, ?_⟩
      · rw [listWriteInto, if_neg (by simpa using hdef)]
        simp only [Outcome.bind, hok]
      · rw [Inv_stripCont hInv', Inv_stripCont hInv, if_pos hdef, encode_append,
          encode_append]
        simp [show encode [58] = ([58] : List Nat) from rfl]
    · obtain ⟨fw1, hok1, hInv1⟩ := writeValueParam_spec hInv hstate hact
      obtain ⟨fw2, hok2, hInv2⟩ :=
        @value_list_spec ⟨fw1, CLState.afterParamValue⟩ _ _ hInv1 (Or.inr rfl) hitems
      refine ⟨fw2, ?_, ?_⟩
      · rw [listWriteInto, if_pos (by simpa using hdef)]
        simp only [Outcome.bind, hok1]
        exact hok2
      · rw [Inv_stripCont hInv2, Inv_stripCont hInv, if_neg hdef]
        simp only [encode_append, encode_str_VALUE]
        simp [List.append_assoc, show encode [59] = ([59] : List Nat) from rfl,
          show encode [61] = ([61] : List Nat) from rfl,
          show encode [58] = ([58] : List Nat) from rfl]

/-- C7 witness: a non-default `DATE` choice against a `DATE-TIME`
default emits `;VALUE=DATE` before the `:`, on a concrete content
line. -/
theorem choice_value_param_iff_witness :
    ∃ fw', any2WriteInto (str "DATE-TIME") (str "DATE") (str "DATE") (str "19970714")
        (ContentLine.mk FoldingWriter.new CLState.afterName) = .ok ⟨fw', CLState.value⟩ ∧
      stripCont fw'.out = stripCont FoldingWriter.new.out ++
        (if str "DATE" = any2DefaultName (str "DATE-TIME") (str "DATE") then [] else
          [59] ++ str "VALUE" ++ [61] ++ encode (str "DATE")) ++
        ([58] ++ encode (TextWriter.write_str (str "19970714"))) :=
  choice_value_param_iff.1 (str "DATE-TIME") (str "DATE") (str "DATE") (str "19970714")
    (ContentLine.mk FoldingWriter.new CLState.afterName) [] Inv_new (Or.inl rfl)
    (by decide) (by decide)

end ICal



